import Mathlib

/-!
Verification development for the CheMPS2 FCI engine (src/CheMPS2/FCI.cpp).

The determinant bookkeeping of the engine is embedded shallowly:
an alpha or beta Slater determinant is an occupation bit pattern stored as
a natural number (bit i = orbital i occupied), exactly as in the C++ code,
and every table the constructor builds (str2cnt / cnt2str, the excitation
lookup tables, the pair lists and the jump tables) is reproduced as a pure
function of the construction parameters.  Floating point numbers are
modelled as exact rationals (and as real numbers for the conjugate
gradient solver, whose convergence threshold involves a square root).
-/

/-- Construction parameters of an FCI object: orbital count, number of
irreps of the Abelian point group, the orbital-to-irrep map, the two
electron counts and the target irrep (FCI::FCI, src/CheMPS2/FCI.cpp
lines 35-79). -/
structure FCIParams where
  L : ℕ
  NumIrreps : ℕ
  orb2irrep : ℕ → ℕ
  Nel_up : ℕ
  Nel_down : ℕ
  TargetIrrep : ℕ

/-- Modelled from the spec: the point-group multiplication table is
consumed, not built, by the engine (spec section 1); the repository's
`Irreps`/`FCI.h` code, which is not under src/, realises the product of
two Abelian irrep labels as their bitwise XOR.  All irrep products in
FCI.cpp go through this function. -/
def getIrrepProduct (a b : ℕ) : ℕ := a ^^^ b

/-- Number of occupied orbitals of bitstring `s` among orbitals `0 .. n-1`:
the particle-count loop of FCI::StartupCountersVsBitstrings
(lines 164-172). -/
def popcountL (s : ℕ) : ℕ → ℕ
  | 0 => 0
  | n + 1 => popcountL s n + (if s.testBit n then 1 else 0)

/-- Irrep of bitstring `s` over orbitals `0 .. n-1`: the ascending product
of the irreps of the occupied orbitals, starting from the trivial irrep 0
(FCI::StartupCountersVsBitstrings lines 166-172). -/
def irrepOfL (p : FCIParams) (s : ℕ) : ℕ → ℕ
  | 0 => 0
  | n + 1 =>
    if s.testBit n then getIrrepProduct (irrepOfL p s n) (p.orb2irrep n)
    else irrepOfL p s n

/-- Does bitstring `s` belong to the determinant block of electron count
`nel` and irrep `b`?  (The assignment condition of
FCI::StartupCountersVsBitstrings lines 179-186.) -/
def detOK (p : FCIParams) (nel b s : ℕ) : Bool :=
  (popcountL s p.L == nel) && (irrepOfL p s p.L == b)

/-- All bitstrings of the block `(nel, b)` in increasing order: the order
in which FCI::StartupCountersVsBitstrings assigns dense counters
(the ascending bitstring loop, lines 161-188). -/
def detList (p : FCIParams) (nel b : ℕ) : List ℕ :=
  (List.range (2 ^ p.L)).filter (fun s => detOK p nel b s)

/-- numPerIrrep_up / numPerIrrep_down of FCI.cpp, generic in the electron
count of the spin channel. -/
def numPerIrrep (p : FCIParams) (nel b : ℕ) : ℕ := (detList p nel b).length

/-- str2cnt_up / str2cnt_down of FCI.cpp: the dense counter of bitstring
`s` inside block `(nel, b)` — the number of earlier valid bitstrings —
or -1 when `s` does not belong to the block (lines 174-187). -/
def str2cnt (p : FCIParams) (nel b s : ℕ) : ℤ :=
  if detOK p nel b s then ((List.range s).filter (fun t => detOK p nel b t)).length
  else -1

/-- cnt2str_up / cnt2str_down of FCI.cpp: the bitstring holding dense
counter `c` of block `(nel, b)` (lines 190-205). -/
def cnt2str (p : FCIParams) (nel b c : ℕ) : ℕ := (detList p nel b).getD c 0

/-- numPerIrrep_up of FCI.cpp. -/
def numPerIrrep_up (p : FCIParams) (b : ℕ) : ℕ := numPerIrrep p p.Nel_up b

/-- numPerIrrep_down of FCI.cpp. -/
def numPerIrrep_down (p : FCIParams) (b : ℕ) : ℕ := numPerIrrep p p.Nel_down b

/-- Single-excitation step on a bitstring: clearing the creator bit `i`
and setting the annihilator bit `j` is the double bit toggle of
FCI::StartupLookupTables (lines 244-267: `bits[creator] = 0` then
`bits[annihilator] = 1`). -/
def excitedString (s i j : ℕ) : ℕ := (s ^^^ 2 ^ i) ^^^ 2 ^ j

/-- The guard of FCI::StartupLookupTables under which a lookup entry is
written: orbital `i` occupied in the new bitstring, and orbital `j` free
once bit `i` is cleared (lines 245 and 250). -/
def excitationAllowed (s i j : ℕ) : Bool :=
  s.testBit i && !((s ^^^ 2 ^ i).testBit j)

/-- The sign stored in lookup_sign_alpha / lookup_sign_beta at block irrep
`b`, new counter `c`, creator `i`, annihilator `j`:
`phase_creator * phase_annihilator`, where `phase_creator` is the parity
of the occupied orbitals below `i` in the new bitstring and
`phase_annihilator` the parity of the occupied orbitals below `j` once
bit `i` is cleared; 0 when the transition is forbidden
(FCI::StartupLookupTables lines 230-271). -/
def lookup_sign (p : FCIParams) (nel b c i j : ℕ) : ℤ :=
  let s := cnt2str p nel b c
  if excitationAllowed s i j then
    ((-1 : ℤ) ^ popcountL s i) * ((-1 : ℤ) ^ popcountL (s ^^^ 2 ^ i) j)
  else 0

/-- The irrep stored in lookup_irrep_alpha / lookup_irrep_beta: the block
irrep times the irreps of the two orbitals (line 253); 0 when the
transition is forbidden. -/
def lookup_irrep (p : FCIParams) (nel b c i j : ℕ) : ℕ :=
  let s := cnt2str p nel b c
  if excitationAllowed s i j then
    getIrrepProduct b (getIrrepProduct (p.orb2irrep i) (p.orb2irrep j))
  else 0

/-- The counter stored in lookup_cnt_alpha / lookup_cnt_beta: the dense
counter of the originating bitstring inside the block of the stored irrep
(line 254); 0 when the transition is forbidden. -/
def lookup_cnt (p : FCIParams) (nel b c i j : ℕ) : ℤ :=
  let s := cnt2str p nel b c
  if excitationAllowed s i j then
    str2cnt p nel (lookup_irrep p nel b c i j) (excitedString s i j)
  else 0

/-- The ordered list of orbital pairs `(creator, annihilator)` with
`creator <= annihilator` whose irrep product equals the center irrep:
irrep_center_crea_orb / irrep_center_anni_orb of FCI::StartupIrrepCenter
(lines 333-357), in the creator-major order of the construction loops. -/
def irrep_center_pairs (p : FCIParams) (c : ℕ) : List (ℕ × ℕ) :=
  ((List.range p.L).flatMap (fun i =>
    (List.range (p.L - i)).map (fun d => (i, i + d)))).filter
      (fun ij => getIrrepProduct (p.orb2irrep ij.1) (p.orb2irrep ij.2) == c)

/-- irrep_center_num of FCI.cpp: the number of pairs forming center irrep
`c`. -/
def irrep_center_num (p : FCIParams) (c : ℕ) : ℕ := (irrep_center_pairs p c).length

/-- irrep_center_jumps of FCI::StartupIrrepCenter (lines 359-371):
`jumps c 0 = 0` and each up-irrep block contributes the product of the
up-determinant count with the down-determinant count of the product
irrep `irrep_up x (c x target)`. -/
def irrep_center_jumps (p : FCIParams) (c : ℕ) : ℕ → ℕ
  | 0 => 0
  | u + 1 =>
    irrep_center_jumps p c u +
      numPerIrrep_up p u *
        numPerIrrep_down p (getIrrepProduct u (getIrrepProduct c p.TargetIrrep))

/-- getVecLength of FCI.h: the final jump-table entry
`irrep_center_jumps[c][NumIrreps]`. -/
def getVecLength (p : FCIParams) (c : ℕ) : ℕ := irrep_center_jumps p c p.NumIrreps

/-- The unconstrained workspace requirement of FCI::StartupIrrepCenter
(lines 360-375): the running maximum over all center irreps of
`irrep_center_num[c] * irrep_center_jumps[c][NumIrreps]`, computed by the
same fold as the construction loop. -/
def HXVsizeWorkspace_base (p : FCIParams) : ℕ :=
  (List.range p.NumIrreps).foldl
    (fun acc c =>
      if irrep_center_num p c * getVecLength p c > acc then
        irrep_center_num p c * getVecLength p c
      else acc) 0

/-- The workspace size FCI::StartupIrrepCenter actually allocates
(lines 376-389): the clamp of `HXVsizeWorkspace` to the memory budget
`maxMemWorkMB` sits inside the `if ( FCIverbose>0 )` block, so it is
applied only when the verbosity is positive and
`maxMemWorkMB < 1e-6 * (2 * sizeof(double)) * HXVsizeWorkspace`;
`2 * sizeof(double) = 16` and the C++ cast of `ceil` is `Nat.ceil`. -/
def HXVsizeWorkspace (p : FCIParams) (maxMemWorkMB : ℚ) (FCIverbose : ℤ) : ℕ :=
  if 0 < FCIverbose ∧
      maxMemWorkMB < (1 / 1000000 : ℚ) * (16 * (HXVsizeWorkspace_base p : ℚ)) then
    ⌈maxMemWorkMB * 1000000 / 16⌉₊
  else HXVsizeWorkspace_base p

/-- The number of occupied orbitals of `s` strictly between positions
`i` and `j` (exclusive on both sides). -/
def occupiedBetween (s i j : ℕ) : ℕ :=
  popcountL s (max i j) - popcountL s (min i j + 1)

/-- A concrete toy construction: two orbitals in a group with a single
irrep, one up and one down electron. -/
def toyParams : FCIParams :=
  { L := 2, NumIrreps := 1, orb2irrep := fun _ => 0,
    Nel_up := 1, Nel_down := 1, TargetIrrep := 0 }

/-- The checked assertions of the constructor FCI::FCI (lines 41-43):
both electron counts within the orbital count and a strictly positive
memory budget.  A failing `assert` terminates the program instead of
returning an object, modelled by `none`. -/
def FCI_construct (L NumIrreps : ℕ) (orb2irrep : ℕ → ℕ)
    (Nel_up Nel_down TargetIrrep : ℕ) (maxMemWorkMB : ℚ) : Option FCIParams :=
  if Nel_up ≤ L ∧ Nel_down ≤ L ∧ 0 < maxMemWorkMB then
    some ⟨L, NumIrreps, orb2irrep, Nel_up, Nel_down, TargetIrrep⟩
  else none

/-- The checked assertion `assert( fabs( eta ) > 0.0 )` at the head of
FCI::CGSolveSystem (line 1725): a zero imaginary shift terminates the
program before any solve step, modelled by `none`. -/
def CGSolveSystem_entry (eta : ℚ) : Option ℚ :=
  if 0 < |eta| then some eta else none

/-- The checked assertions at the head of
FCI::ActWithSecondQuantizedOperator (lines 1621-1623): the operator tag
is creator or annihilator, the orbital index is inside the orbital range,
and the two interacting instances have the same orbital count. -/
def ActWithSecondQuantizedOperator_entry (whichOperator : Char)
    (orbIndex L otherL : ℕ) : Option Unit :=
  if (whichOperator = 'C' ∨ whichOperator = 'A') ∧ orbIndex < L ∧ L = otherL then
    some ()
  else none

/-- Modelled from the spec: the base tolerance constant
`CheMPS2::HEFF_DAVIDSON_RTOL_BASE` comes from the repository's Options
header, which is not under src/; its value there is 1e-10.  The CG
convergence threshold is 100 times this base times the square root of the
vector length (spec section 4.6). -/
noncomputable def HEFF_DAVIDSON_RTOL_BASE : ℝ := 1 / 10 ^ 10

/-- The convergence threshold of FCI::CGCoreSolver (line 1789). -/
noncomputable def CGRESIDUALTHRESHOLD (vecLength : ℕ) : ℝ :=
  100 * HEFF_DAVIDSON_RTOL_BASE * Real.sqrt vecLength

/-- ddot over the first `n` entries (FCI::FCIddot). -/
noncomputable def FCIddotR (n : ℕ) (v w : ℕ → ℝ) : ℝ :=
  ∑ t ∈ Finset.range n, v t * w t

/-- FCI::CGAlphaPlusBetaHAM (lines 1826-1835): `out = (alpha + beta*H) in`
where `Hv` is the Hamiltonian action without the constant part and
`Econst` the core energy added by the wrapper. -/
noncomputable def CGAlphaPlusBetaHAM (Econst : ℝ) (Hv : (ℕ → ℝ) → ℕ → ℝ)
    (alpha beta : ℝ) (v : ℕ → ℝ) : ℕ → ℝ :=
  fun t => (alpha + beta * Econst) * v t + beta * Hv v t

/-- FCI::CGOperator (lines 1837-1850):
`precon * [ (alpha + beta H)^2 + eta^2 ] * precon`. -/
noncomputable def CGOperator (Econst : ℝ) (Hv : (ℕ → ℝ) → ℕ → ℝ)
    (alpha beta eta : ℝ) (precon v : ℕ → ℝ) : ℕ → ℝ :=
  fun t =>
    precon t *
      (CGAlphaPlusBetaHAM Econst Hv alpha beta
          (CGAlphaPlusBetaHAM Econst Hv alpha beta (fun r => precon r * v r)) t +
        eta * eta * (precon t * v t))

/-- The loop state of FCI::CGCoreSolver: the current solution, residual
and search direction, the cached residual norm square `rkT_rk`, and the
iteration counter `count_k`. -/
structure CGState where
  Sol : ℕ → ℝ
  RESID : ℕ → ℝ
  PVEC : ℕ → ℝ
  rkT_rk : ℝ
  count_k : ℕ

/-- One iteration of the while loop of FCI::CGCoreSolver
(lines 1806-1822). -/
noncomputable def CGCoreStep (n : ℕ) (Econst : ℝ) (Hv : (ℕ → ℝ) → ℕ → ℝ)
    (alpha beta eta : ℝ) (precon : ℕ → ℝ) (st : CGState) : CGState :=
  let OxPVEC := CGOperator Econst Hv alpha beta eta precon st.PVEC
  let alpha_k := st.rkT_rk / FCIddotR n st.PVEC OxPVEC
  let RESID1 := fun t => st.RESID t - alpha_k * OxPVEC t
  let rkplus1T_rkplus1 := FCIddotR n RESID1 RESID1
  let beta_k := rkplus1T_rkplus1 / st.rkT_rk
  { Sol := fun t => st.Sol t + alpha_k * st.PVEC t
    RESID := RESID1
    PVEC := fun t => RESID1 t + beta_k * st.PVEC t
    rkT_rk := rkplus1T_rkplus1
    count_k := st.count_k + 1 }

/-- The initialisation of FCI::CGCoreSolver before its loop
(lines 1799-1804): `r_0 = b - Operator x_0`, `p_0 = r_0`. -/
noncomputable def CGCoreInit (n : ℕ) (Econst : ℝ) (Hv : (ℕ → ℝ) → ℕ → ℝ)
    (alpha beta eta : ℝ) (precon Sol RESID : ℕ → ℝ) : CGState :=
  let OxPVEC := CGOperator Econst Hv alpha beta eta precon Sol
  let RESID1 := fun t => RESID t - OxPVEC t
  { Sol := Sol, RESID := RESID1, PVEC := RESID1
    rkT_rk := FCIddotR n RESID1 RESID1, count_k := 0 }

/-- The while loop of FCI::CGCoreSolver, with explicit fuel: the source
loop `while ( residualNorm >= CGRESIDUALTHRESHOLD )` checks only the
residual norm — its guard does not involve the iteration counter — so the
fuel is exhausted (`none`) whenever the residual criterion has not been
met within `fuel` iterations. -/
noncomputable def CGCoreRun (n : ℕ) (Econst : ℝ) (Hv : (ℕ → ℝ) → ℕ → ℝ)
    (alpha beta eta : ℝ) (precon : ℕ → ℝ) : ℕ → CGState → Option CGState
  | fuel, st =>
    if CGRESIDUALTHRESHOLD n ≤ Real.sqrt st.rkT_rk then
      match fuel with
      | 0 => none
      | fuel + 1 =>
        CGCoreRun n Econst Hv alpha beta eta precon fuel
          (CGCoreStep n Econst Hv alpha beta eta precon st)
    else some st

/-- The input on which the CG core loop never meets its residual
criterion: a single-entry system whose preconditioner is the zero vector,
so the operator annihilates every vector and the residual stays at norm
one forever. -/
noncomputable def CGBadInit : CGState :=
  CGCoreInit 1 0 (fun v => v) 0 0 1 (fun _ => 0) (fun _ => 0) (fun _ => 1)

/-- The integral tensors the constructor copies from the external
Hamiltonian (FCI::FCI lines 54-72): the one-body matrix G, the
chemist-notation two-body tensor ERI, and the core energy constant,
immutable for the object's lifetime.  Doubles are modelled as exact
rationals. -/
structure FCIIntegrals where
  Gmat : ℕ → ℕ → ℚ
  ERI : ℕ → ℕ → ℕ → ℕ → ℚ
  Econstant : ℚ

/-- An occupation bit as a number (0 or 1), as the C++ code uses
`bits[orb]` in arithmetic. -/
def bitQ (s o : ℕ) : ℚ := if s.testBit o then 1 else 0

/-- Accumulate `val` into one location of a buffer: the shape of every
`output[ location ] += value` write of FCI.cpp. -/
def addAt (loc : ℕ) (val : ℚ) (out : ℕ → ℚ) : ℕ → ℚ :=
  fun t => if t = loc then out t + val else out t

/-- FCI::ClearVector (lines 1553-1557): zero the first `len` entries. -/
def ClearVectorQ (len : ℕ) (v : ℕ → ℚ) : ℕ → ℚ :=
  fun t => if t < len then 0 else v t

/-- The descending while loop of FCI::getUpIrrepOfCounter
(lines 419-425): starting from `NumIrreps`, decrement while the counter
sits before the jump of the previous irrep; the result is the up irrep
whose block contains the counter. -/
def getUpIrrepOfCounter_go (p : FCIParams) (center counter : ℕ) : ℕ → ℕ
  | 0 => 0
  | u + 1 =>
    if counter < irrep_center_jumps p center u then
      getUpIrrepOfCounter_go p center counter u
    else u

/-- FCI::getUpIrrepOfCounter. -/
def getUpIrrepOfCounter (p : FCIParams) (center counter : ℕ) : ℕ :=
  getUpIrrepOfCounter_go p center counter p.NumIrreps

/-- The up-spin bitstring of FCI::getBitsOfCounter (lines 427-441). -/
def getBitsOfCounter_up (p : FCIParams) (center counter : ℕ) : ℕ :=
  let irrep_up := getUpIrrepOfCounter p center counter
  cnt2str p p.Nel_up irrep_up
    ((counter - irrep_center_jumps p center irrep_up) % numPerIrrep_up p irrep_up)

/-- The down-spin bitstring of FCI::getBitsOfCounter (lines 427-441). -/
def getBitsOfCounter_down (p : FCIParams) (center counter : ℕ) : ℕ :=
  let localTargetIrrep := getIrrepProduct center p.TargetIrrep
  let irrep_up := getUpIrrepOfCounter p center counter
  let irrep_down := getIrrepProduct irrep_up localTargetIrrep
  cnt2str p p.Nel_down irrep_down
    ((counter - irrep_center_jumps p center irrep_up) / numPerIrrep_up p irrep_up)

/-- The `E^{alpha}` summand of the gather phase of FCI::HamTimesVec
(lines 588-596 and 607-615): sign times the input entry addressed through
the alpha lookup tables, zero when the stored sign is zero. -/
def hxv_up_term (p : FCIParams) (input : ℕ → ℚ)
    (irrep_new_up count_new_up count_new_down i j : ℕ) : ℚ :=
  let sign := lookup_sign p p.Nel_up irrep_new_up count_new_up i j
  if sign = 0 then 0
  else
    let irrep_old_up := lookup_irrep p p.Nel_up irrep_new_up count_new_up i j
    (sign : ℚ) *
      input (irrep_center_jumps p 0 irrep_old_up +
        (lookup_cnt p p.Nel_up irrep_new_up count_new_up i j).toNat +
        numPerIrrep_up p irrep_old_up * count_new_down)

/-- The `E^{beta}` summand of the gather phase of FCI::HamTimesVec
(lines 598-604 and 617-623). -/
def hxv_down_term (p : FCIParams) (input : ℕ → ℚ)
    (irrep_new_up irrep_new_down count_new_up count_new_down i j : ℕ) : ℚ :=
  let sign := lookup_sign p p.Nel_down irrep_new_down count_new_down i j
  if sign = 0 then 0
  else
    (sign : ℚ) *
      input (irrep_center_jumps p 0 irrep_new_up + count_new_up +
        numPerIrrep_up p irrep_new_up *
          (lookup_cnt p p.Nel_down irrep_new_down count_new_down i j).toNat)

/-- One entry of HXVworkbig1: the combined amplitude
`E_{i<=j} + (1 - delta_ij) E_{j>i}` applied to the input, for the orbital
pair `(crea, anni)` and vector counter `v` of center irrep `center`
(FCI::HamTimesVec lines 575-628). -/
def hxv_work1_value (p : FCIParams) (input : ℕ → ℚ)
    (center crea anni v : ℕ) : ℚ :=
  let localTargetIrrep := getIrrepProduct p.TargetIrrep center
  let irrep_new_up := getUpIrrepOfCounter p center v
  let irrep_new_down := getIrrepProduct irrep_new_up localTargetIrrep
  let count_new_up :=
    (v - irrep_center_jumps p center irrep_new_up) % numPerIrrep_up p irrep_new_up
  let count_new_down :=
    (v - irrep_center_jumps p center irrep_new_up) / numPerIrrep_up p irrep_new_up
  hxv_up_term p input irrep_new_up count_new_up count_new_down crea anni +
    hxv_down_term p input irrep_new_up irrep_new_down count_new_up count_new_down
      crea anni +
    (if anni > crea then
      hxv_up_term p input irrep_new_up count_new_up count_new_down anni crea +
        hxv_down_term p input irrep_new_up irrep_new_down count_new_up count_new_down
          anni crea
    else 0)

/-- The alpha scatter target of FCI::HamTimesVec (lines 674-687 and
706-719): the output location and stored sign for vector counter `v`,
reading the alpha lookup at entry `(first, second)`; `none` when the sign
is zero (the thread-safety guard of the source). -/
def hxv_scatter_up (p : FCIParams) (center first second v : ℕ) : Option (ℕ × ℤ) :=
  let irrep_old_up := getUpIrrepOfCounter p center v
  let count_old_up :=
    (v - irrep_center_jumps p center irrep_old_up) % numPerIrrep_up p irrep_old_up
  let count_old_down :=
    (v - irrep_center_jumps p center irrep_old_up) / numPerIrrep_up p irrep_old_up
  let sign := lookup_sign p p.Nel_up irrep_old_up count_old_up first second
  if sign = 0 then none
  else
    let irrep_new_up := lookup_irrep p p.Nel_up irrep_old_up count_old_up first second
    some (irrep_center_jumps p 0 irrep_new_up +
        (lookup_cnt p p.Nel_up irrep_old_up count_old_up first second).toNat +
        numPerIrrep_up p irrep_new_up * count_old_down,
      sign)

/-- The beta scatter target of FCI::HamTimesVec (lines 689-702 and
721-734). -/
def hxv_scatter_down (p : FCIParams) (center first second v : ℕ) : Option (ℕ × ℤ) :=
  let localTargetIrrep := getIrrepProduct p.TargetIrrep center
  let irrep_old_up := getUpIrrepOfCounter p center v
  let count_old_down :=
    (v - irrep_center_jumps p center irrep_old_up) / numPerIrrep_up p irrep_old_up
  let irrep_old_down := getIrrepProduct irrep_old_up localTargetIrrep
  let sign := lookup_sign p p.Nel_down irrep_old_down count_old_down first second
  if sign = 0 then none
  else
    let count_old_up :=
      (v - irrep_center_jumps p center irrep_old_up) % numPerIrrep_up p irrep_old_up
    some (irrep_center_jumps p 0 irrep_old_up + count_old_up +
        numPerIrrep_up p irrep_old_up *
          (lookup_cnt p p.Nel_down irrep_old_down count_old_down first second).toNat,
      sign)

/-- One scatter sub-loop over a chunk of vector counters: each counter
with a nonzero stored sign accumulates `sign * workbig2[pair, counter]`
into its target output location. -/
def hxv_scatter_loop (f : ℕ → Option (ℕ × ℤ)) (pairIdx numPairs start : ℕ)
    (w2 : ℕ → ℚ) (chunk : List ℕ) (out : ℕ → ℚ) : ℕ → ℚ :=
  chunk.foldl
    (fun o v =>
      match f v with
      | none => o
      | some (loc, sign) =>
        addAt loc ((sign : ℚ) * w2 (pairIdx + numPairs * (v - start))) o)
    out

/-- The state of the member buffers FCI::HamTimesVec writes:
HXVworksmall, HXVworkbig1, HXVworkbig2, and the caller-supplied output
buffer. -/
structure HXVState where
  worksmall : ℕ → ℚ
  workbig1 : ℕ → ℚ
  workbig2 : ℕ → ℚ
  out : ℕ → ℚ

/-- One chunk iteration of FCI::HamTimesVec for one center irrep
(lines 564-738): fill workbig1 with the gathered amplitudes, add the
one-body dgemm into the output when the center irrep is 0 (after loading
G into HXVworksmall), load `0.5 * ERI` into HXVworksmall and contract it
against workbig1 into workbig2, and scatter workbig2 back into the
output through the four excitation sub-loops of each orbital pair. -/
def hxv_chunk (p : FCIParams) (ints : FCIIntegrals) (input : ℕ → ℚ)
    (wssize center iteration : ℕ) (st : HXVState) : HXVState :=
  let pairs := irrep_center_pairs p center
  let numPairs := pairs.length
  let localVecLength := getVecLength p center
  let space := if numPairs = 0 then wssize else wssize / numPairs
  let start := iteration * space
  let stop := min ((iteration + 1) * space) localVecLength
  let loopsize := numPairs * (stop - start)
  let chunk := (List.range (stop - start)).map (fun d => start + d)
  let w1 := fun idx =>
    if idx < loopsize then
      hxv_work1_value p input center (pairs.getD (idx % numPairs) (0, 0)).1
        (pairs.getD (idx % numPairs) (0, 0)).2 (start + idx / numPairs)
    else st.workbig1 idx
  let ws1 := fun idx =>
    if center = 0 ∧ idx < numPairs then
      ints.Gmat (pairs.getD idx (0, 0)).1 (pairs.getD idx (0, 0)).2
    else st.worksmall idx
  let out1 := fun t =>
    if center = 0 ∧ start ≤ t ∧ t < stop then
      st.out t + ∑ q ∈ Finset.range numPairs, w1 (q + numPairs * (t - start)) * ws1 q
    else st.out t
  let ws2 := fun idx =>
    if idx < numPairs * numPairs then
      (1 / 2 : ℚ) *
        ints.ERI (pairs.getD (idx % numPairs) (0, 0)).1
          (pairs.getD (idx % numPairs) (0, 0)).2
          (pairs.getD (idx / numPairs) (0, 0)).1 (pairs.getD (idx / numPairs) (0, 0)).2
    else ws1 idx
  let w2 := fun idx =>
    if idx < loopsize then
      ∑ q ∈ Finset.range numPairs,
        ws2 (idx % numPairs + numPairs * q) * w1 (q + numPairs * (idx / numPairs))
    else st.workbig2 idx
  let out2 :=
    (List.range numPairs).foldl
      (fun o q =>
        let orbi := (pairs.getD q (0, 0)).1
        let orbj := (pairs.getD q (0, 0)).2
        let o1 := hxv_scatter_loop (fun v => hxv_scatter_up p center orbj orbi v)
          q numPairs start w2 chunk o
        let o2 := hxv_scatter_loop (fun v => hxv_scatter_down p center orbj orbi v)
          q numPairs start w2 chunk o1
        if orbj > orbi then
          let o3 := hxv_scatter_loop (fun v => hxv_scatter_up p center orbi orbj v)
            q numPairs start w2 chunk o2
          hxv_scatter_loop (fun v => hxv_scatter_down p center orbi orbj v)
            q numPairs start w2 chunk o3
        else o2)
      out1
  { worksmall := ws2, workbig1 := w1, workbig2 := w2, out := out2 }

/-- All chunk iterations of one center irrep (lines 560-563): the chunk
count is `ceil(localVecLength / space_per_vectorpiece)` computed exactly
as the source does. -/
def hxv_center (p : FCIParams) (ints : FCIIntegrals) (input : ℕ → ℚ)
    (wssize center : ℕ) (st : HXVState) : HXVState :=
  let numPairs := (irrep_center_pairs p center).length
  let localVecLength := getVecLength p center
  let space := if numPairs = 0 then wssize else wssize / numPairs
  let base := localVecLength / space
  let numIterations := base + (if localVecLength > base * space then 1 else 0)
  (List.range numIterations).foldl
    (fun s it => hxv_chunk p ints input wssize center it s) st

/-- FCI::HamTimesVec (lines 540-745): clear the output over the full
vector length, then process every center irrep. -/
def HamTimesVec_run (p : FCIParams) (ints : FCIIntegrals) (input : ℕ → ℚ)
    (wssize : ℕ) (st0 : HXVState) : HXVState :=
  (List.range p.NumIrreps).foldl
    (fun s c => hxv_center p ints input wssize c s)
    { st0 with out := ClearVectorQ (getVecLength p 0) st0.out }

/-- The full engine state after construction: parameters, the immutable
integral copies, the memory settings, and the contents of the three
working buffers HXVworksmall / HXVworkbig1 / HXVworkbig2, which
FCI::StartupIrrepCenter allocates once (lines 387-389) and every
HamTimesVec call writes. -/
structure FCIEngine where
  p : FCIParams
  Gmat : ℕ → ℕ → ℚ
  ERI : ℕ → ℕ → ℕ → ℕ → ℚ
  Econstant : ℚ
  maxMemWorkMB : ℚ
  FCIverbose : ℤ
  HXVworksmall : ℕ → ℚ
  HXVworkbig1 : ℕ → ℚ
  HXVworkbig2 : ℕ → ℚ

/-- The integral view of an engine. -/
def FCIEngine.ints (eng : FCIEngine) : FCIIntegrals :=
  ⟨eng.Gmat, eng.ERI, eng.Econstant⟩

/-- FCI::HamTimesVec as an operation on the engine: it returns the
engine with its three member working buffers updated, and the final
contents of the caller-supplied output buffer. -/
def HamTimesVec (eng : FCIEngine) (input outInit : ℕ → ℚ) :
    FCIEngine × (ℕ → ℚ) :=
  let st := HamTimesVec_run eng.p eng.ints input
    (HXVsizeWorkspace eng.p eng.maxMemWorkMB eng.FCIverbose)
    ⟨eng.HXVworksmall, eng.HXVworkbig1, eng.HXVworkbig2, outInit⟩
  ({ eng with
      HXVworksmall := st.worksmall
      HXVworkbig1 := st.workbig1
      HXVworkbig2 := st.workbig2 },
    st.out)

/-- FCI::apply_excitation (lines 747-795): clear the result buffer over
the shifted-irrep vector length, then accumulate the alpha and beta
single-excitation contributions block by block through the lookup
tables. -/
def apply_excitation (p : FCIParams) (orig : ℕ → ℚ)
    (crea anni orig_target_irrep : ℕ) (resultInit : ℕ → ℚ) : ℕ → ℚ :=
  let result_target_irrep :=
    getIrrepProduct (getIrrepProduct (p.orb2irrep crea) (p.orb2irrep anni))
      orig_target_irrep
  let orig_irrep_center := getIrrepProduct p.TargetIrrep orig_target_irrep
  let result_irrep_center := getIrrepProduct p.TargetIrrep result_target_irrep
  let result_length := getVecLength p result_irrep_center
  (List.range p.NumIrreps).foldl
    (fun o riu =>
      let rid := getIrrepProduct riu result_target_irrep
      let o1 :=
        (List.range (numPerIrrep_up p riu)).foldl
          (fun o rcu =>
            let sign := lookup_sign p p.Nel_up riu rcu crea anni
            if sign = 0 then o
            else
              let oiu := lookup_irrep p p.Nel_up riu rcu crea anni
              let ocu := (lookup_cnt p p.Nel_up riu rcu crea anni).toNat
              (List.range (numPerIrrep_down p rid)).foldl
                (fun o cd =>
                  addAt
                    (irrep_center_jumps p result_irrep_center riu + rcu +
                      numPerIrrep_up p riu * cd)
                    ((sign : ℚ) *
                      orig (irrep_center_jumps p orig_irrep_center oiu + ocu +
                        numPerIrrep_up p oiu * cd))
                    o)
                o)
          o
      (List.range (numPerIrrep_down p rid)).foldl
        (fun o rcd =>
          let sign := lookup_sign p p.Nel_down rid rcd crea anni
          if sign = 0 then o
          else
            let ocd := (lookup_cnt p p.Nel_down rid rcd crea anni).toNat
            (List.range (numPerIrrep_up p riu)).foldl
              (fun o cu =>
                addAt
                  (irrep_center_jumps p result_irrep_center riu +
                    numPerIrrep_up p riu * rcd + cu)
                  ((sign : ℚ) *
                    orig (irrep_center_jumps p orig_irrep_center riu +
                      numPerIrrep_up p riu * ocd + cu))
                  o)
              o)
        o1)
    (ClearVectorQ result_length resultInit)

/-- The annihilated-orbital difference list of FCI::GetMatrixElement
(lines 1380-1403): orbitals where bra and ket differ with the ket
occupied, in ascending order. -/
def diffAnnih (L bra ket : ℕ) : List ℕ :=
  (List.range L).filter (fun o => (bra.testBit o != ket.testBit o) && ket.testBit o)

/-- The created-orbital difference list of FCI::GetMatrixElement:
orbitals where bra and ket differ with the ket empty, in ascending
order. -/
def diffCreat (L bra ket : ℕ) : List ℕ :=
  (List.range L).filter (fun o => (bra.testBit o != ket.testBit o) && !ket.testBit o)

/-- FCI::GetMatrixElement (lines 1367-1511): the direct Slater-Condon
matrix element between two determinant pairs, from the bit-pattern
differences; 0 on any early return (a third difference in one list,
mismatched created/annihilated counts per channel, or more than two
differences in total). -/
def GetMatrixElement (p : FCIParams) (ints : FCIIntegrals)
    (bra_up bra_down ket_up ket_down : ℕ) : ℚ :=
  let annih_up := diffAnnih p.L bra_up ket_up
  let creat_up := diffCreat p.L bra_up ket_up
  let annih_down := diffAnnih p.L bra_down ket_down
  let creat_down := diffCreat p.L bra_down ket_down
  if 2 < annih_up.length ∨ 2 < creat_up.length ∨ 2 < annih_down.length ∨
      2 < creat_down.length then 0
  else if annih_up.length ≠ creat_up.length ∨ annih_down.length ≠ creat_down.length
    then 0
  else if 2 < annih_up.length + annih_down.length ∨
      2 < creat_up.length + creat_down.length then 0
  else if annih_up.length = 0 ∧ annih_down.length = 0 then
    ∑ o1 ∈ Finset.range p.L,
      ((bitQ ket_up o1 + bitQ ket_down o1) * ints.Gmat o1 o1 +
        ∑ o2 ∈ Finset.range p.L,
          ((1 / 2 : ℚ) * (bitQ ket_up o1 + bitQ ket_down o1) *
              (bitQ ket_up o2 + bitQ ket_down o2) * ints.ERI o1 o1 o2 o2 +
            (1 / 2 : ℚ) *
              (bitQ ket_up o1 + bitQ ket_down o1 -
                bitQ ket_up o1 * bitQ ket_up o2 -
                bitQ ket_down o1 * bitQ ket_down o2) * ints.ERI o1 o2 o2 o1))
  else if annih_up.length = 1 ∧ annih_down.length = 0 then
    let orbj := creat_up.getD 0 0
    let orbl := annih_up.getD 0 0
    (ints.Gmat orbj orbl +
        ∑ o ∈ Finset.range p.L,
          (ints.ERI orbj o o orbl * ((1 / 2 : ℚ) - bitQ ket_up o) +
            ints.ERI o o orbj orbl * (bitQ ket_up o + bitQ ket_down o))) *
      ((-1 : ℚ) ^ occupiedBetween ket_up orbj orbl)
  else if annih_up.length = 0 ∧ annih_down.length = 1 then
    let orbj := creat_down.getD 0 0
    let orbl := annih_down.getD 0 0
    (ints.Gmat orbj orbl +
        ∑ o ∈ Finset.range p.L,
          (ints.ERI orbj o o orbl * ((1 / 2 : ℚ) - bitQ ket_down o) +
            ints.ERI o o orbj orbl * (bitQ ket_up o + bitQ ket_down o))) *
      ((-1 : ℚ) ^ occupiedBetween ket_down orbj orbl)
  else if annih_up.length = 2 ∧ annih_down.length = 0 then
    let orbi := creat_up.getD 0 0
    let orbj := creat_up.getD 1 0
    let orbk := annih_up.getD 0 0
    let orbl := annih_up.getD 1 0
    (ints.ERI orbi orbk orbj orbl - ints.ERI orbi orbl orbj orbk) *
      ((-1 : ℚ) ^ occupiedBetween ket_up orbk orbl) *
      ((-1 : ℚ) ^ occupiedBetween bra_up orbi orbj)
  else if annih_up.length = 0 ∧ annih_down.length = 2 then
    let orbi := creat_down.getD 0 0
    let orbj := creat_down.getD 1 0
    let orbk := annih_down.getD 0 0
    let orbl := annih_down.getD 1 0
    (ints.ERI orbi orbk orbj orbl - ints.ERI orbi orbl orbj orbk) *
      ((-1 : ℚ) ^ occupiedBetween ket_down orbk orbl) *
      ((-1 : ℚ) ^ occupiedBetween bra_down orbi orbj)
  else if annih_up.length = 1 ∧ annih_down.length = 1 then
    let orbi := creat_up.getD 0 0
    let orbj := creat_down.getD 0 0
    let orbk := annih_up.getD 0 0
    let orbl := annih_down.getD 0 0
    ints.ERI orbi orbk orbj orbl *
      ((-1 : ℚ) ^ occupiedBetween ket_up orbi orbk) *
      ((-1 : ℚ) ^ occupiedBetween ket_down orbj orbl)
  else 0

/-- The two-determinant toy system of the spec (section 8): two orbitals
in a group with a single irrep, one up electron and no down electron, so
the CI vector has exactly two entries. -/
def p5 : FCIParams :=
  { L := 2, NumIrreps := 1, orb2irrep := fun _ => 0,
    Nel_up := 1, Nel_down := 0, TargetIrrep := 0 }

/-- Concrete integrals for the toy system, with the eightfold permutation
symmetry real electron-repulsion integrals have. -/
def ints5 : FCIIntegrals :=
  { Gmat := fun i j => (i + j + 1 : ℚ)
    ERI := fun i j k l => ((1 + i) * (1 + j) + 1 : ℚ) * ((1 + k) * (1 + l) + 1 : ℚ)
    Econstant := 0 }

/-- The toy engine built on `p5` and `ints5` with a large memory budget
and zeroed working buffers. -/
def eng5 : FCIEngine :=
  { p := p5, Gmat := ints5.Gmat, ERI := ints5.ERI, Econstant := 0,
    maxMemWorkMB := 1000, FCIverbose := 0,
    HXVworksmall := fun _ => 0, HXVworkbig1 := fun _ => 0, HXVworkbig2 := fun _ => 0 }

/-- The `c`-th unit basis CI vector. -/
def basis5 (c : ℕ) : ℕ → ℚ := fun t => if t = c then 1 else 0

/-- A single-orbital engine whose working-buffer contents are the
constant 7, used to observe that HamTimesVec overwrites the member
buffer HXVworksmall allocated at construction. -/
def p9 : FCIParams :=
  { L := 1, NumIrreps := 1, orb2irrep := fun _ => 0,
    Nel_up := 1, Nel_down := 0, TargetIrrep := 0 }

/-- The engine observing working-buffer mutation: every buffer entry
starts at 7 and the two-body integral is the constant 3. -/
def eng9 : FCIEngine :=
  { p := p9, Gmat := fun _ _ => 1, ERI := fun _ _ _ _ => 3, Econstant := 0,
    maxMemWorkMB := 1000, FCIverbose := 0,
    HXVworksmall := fun _ => 7, HXVworkbig1 := fun _ => 7, HXVworkbig2 := fun _ => 7 }

/-- An index sextet of the 3-RDM: the creator triple and the annihilator
triple.  Position 0 is the fastest-running index of the flat C array
(crea3 in the source loops), position 2 the slowest creator (crea1);
likewise anni3, anni2, anni1 for the annihilators. -/
abbrev Sextet : Type := (Fin 3 → ℕ) × (Fin 3 → ℕ)

/-- The symmetry group of the documented 12-fold invariance: a
simultaneous permutation of the three creator-annihilator pairs,
optionally composed with the transpose that swaps the creator and
annihilator triples. -/
abbrev RDMSym : Type := Equiv.Perm (Fin 3) × Bool

/-- The action of the 12-fold group on index sextets. -/
def actRDM (g : RDMSym) (x : Sextet) : Sextet :=
  if g.2 then (fun s => x.2 (g.1 s), fun s => x.1 (g.1 s))
  else (fun s => x.1 (g.1 s), fun s => x.2 (g.1 s))

/-- The flat address of a sextet in the `three_rdm` array:
`crea3 + L*(crea2 + L*(crea1 + L*(anni3 + L*(anni2 + L*anni1))))`
(FCI::Fill3RDM line 981 and the symmetrization block). -/
def idx3 (L : ℕ) (x : Sextet) : ℕ :=
  x.1 0 + L * (x.1 1 + L * (x.1 2 + L * (x.2 0 + L * (x.2 1 + L * x.2 2))))

/-- All six orbitals of the sextet are inside the orbital range. -/
def sexBounded (L : ℕ) (x : Sextet) : Prop :=
  (∀ s, x.1 s < L) ∧ (∀ s, x.2 s < L)

/-- The product of the six orbital irreps of a sextet, in the order the
symmetrization condition of FCI::Fill3RDM accumulates it
(lines 1001-1009). -/
def sexIrrep (p : FCIParams) (x : Sextet) : ℕ :=
  getIrrepProduct (getIrrepProduct (getIrrepProduct (getIrrepProduct
    (getIrrepProduct (p.orb2irrep (x.1 2)) (p.orb2irrep (x.2 2)))
    (p.orb2irrep (x.1 1))) (p.orb2irrep (x.2 1))) (p.orb2irrep (x.1 0)))
    (p.orb2irrep (x.2 0))

/-- The sextets the symmetry-respecting writes of Fill3RDM can touch:
total irrep product trivial. -/
def sexOK (p : FCIParams) (x : Sextet) : Prop := sexIrrep p x = 0

/-- The irrep product of one creator-annihilator pair of a sextet. -/
def pairIrr (p : FCIParams) (x : Sextet) (s : Fin 3) : ℕ :=
  getIrrepProduct (p.orb2irrep (x.1 s)) (p.orb2irrep (x.2 s))

/-- The ascending orbital list of a loop `for (o = a; o < b; o++)`. -/
def rangeFrom (a b : ℕ) : List ℕ := (List.range (b - a)).map (fun k => a + k)

/-- The sextet stored at flat address
`crea3 + L*(crea2 + L*(crea1 + L*(anni3 + L*(anni2 + L*anni1))))`. -/
def mkSex (crea3 crea2 crea1 anni3 anni2 anni1 : ℕ) : Sextet :=
  (![crea3, crea2, crea1], ![anni3, anni2, anni1])

/-- The three-cycle sending slot 0 to 1, 1 to 2 and 2 to 0. -/
def sigmaCycA : Equiv.Perm (Fin 3) := (Equiv.swap 1 2).trans (Equiv.swap 0 1)

/-- The three-cycle sending slot 0 to 2, 1 to 0 and 2 to 1. -/
def sigmaCycB : Equiv.Perm (Fin 3) := (Equiv.swap 0 1).trans (Equiv.swap 1 2)

/-- The eleven group elements whose images of the canonical sextet are
assigned by the symmetrization block of FCI::Fill3RDM, in source order
(lines 1015-1030).  For the canonical sextet x = (crea3,crea2,crea1;
anni3,anni2,anni1), `actRDM ⟨Equiv.swap 0 1, false⟩ x` is
(crea2,crea3,crea1; anni2,anni3,anni1), whose flat address is exactly
the index expression of line 1015, and so on line by line. -/
def symWrites : List RDMSym :=
  [⟨Equiv.swap 0 1, false⟩, ⟨sigmaCycA, false⟩, ⟨Equiv.swap 1 2, false⟩,
   ⟨sigmaCycB, false⟩, ⟨Equiv.swap 0 2, false⟩,
   ⟨1, true⟩, ⟨Equiv.swap 0 1, true⟩, ⟨sigmaCycA, true⟩,
   ⟨Equiv.swap 1 2, true⟩, ⟨sigmaCycB, true⟩, ⟨Equiv.swap 0 2, true⟩]

/-- One body of the symmetrization loop of FCI::Fill3RDM
(lines 1014-1030): read the tensor once at the canonical sextet, then
assign that value at the eleven permuted addresses. -/
def symStep (L : ℕ) (T : ℕ → ℚ) (x : Sextet) : ℕ → ℚ :=
  let value := T (idx3 L x)
  symWrites.foldl
    (fun Tk g => fun t => if t = idx3 L (actRDM g x) then value else Tk t) T

/-- The canonical sextets visited by the symmetrization loop nest of
FCI::Fill3RDM (lines 999-1009), in loop order: anni1 outermost, then
crea1, crea2, anni2 from anni1, crea3 from crea2, anni3 from anni1,
guarded by the accumulated irrep-product condition of line 1009. -/
def canonList (p : FCIParams) : List Sextet :=
  (List.range p.L).flatMap (fun anni1 =>
  (rangeFrom anni1 p.L).flatMap (fun crea1 =>
  (rangeFrom anni1 p.L).flatMap (fun crea2 =>
  (rangeFrom anni1 p.L).flatMap (fun anni2 =>
  (rangeFrom crea2 p.L).flatMap (fun crea3 =>
  (rangeFrom anni1 p.L).filterMap (fun anni3 =>
    if getIrrepProduct (getIrrepProduct (getIrrepProduct (getIrrepProduct
          (p.orb2irrep crea1) (p.orb2irrep anni1)) (p.orb2irrep crea2))
          (p.orb2irrep anni2)) (p.orb2irrep crea3) = p.orb2irrep anni3
    then some (mkSex crea3 crea2 crea1 anni3 anni2 anni1) else none))))))

/-- The 12-fold symmetrization pass of FCI::Fill3RDM (lines 998-1038)
as a fold of the per-canonical-sextet body over the loop nest. -/
def make12fold (p : FCIParams) (T : ℕ → ℚ) : ℕ → ℚ :=
  (canonList p).foldl (symStep p.L) T

/-- FCIddot (sum of pointwise products over the vector length), on the
exact-rational model of doubles. -/
def FCIddotQ (n : ℕ) (v w : ℕ → ℚ) : ℚ :=
  ∑ i ∈ Finset.range n, v i * w i

/-- The memory Fill3RDM writes: the three per-call workspace buffers
(FCI.cpp lines 918-920) and the caller's three_rdm buffer. -/
structure RDM3State where
  w1 : ℕ → ℚ
  w2 : ℕ → ℚ
  w3 : ℕ → ℚ
  rdm : ℕ → ℚ

/-- The computation phase of FCI::Fill3RDM (lines 912-996): clear the
tensor over L^6 entries, then loop over irrep_center1, anni1,
crea1 >= anni1; on irrep match apply E_{crea1,anni1}; for trivial
irrep product accumulate the two delta-contraction terms of
lines 940-941; then loop irrep_center2, crea2, anni2 >= anni1; on
irrep match apply E_{crea2,anni2}; when the two products coincide
subtract the three single-delta terms of lines 965-967; then loop
crea3 >= crea2 and anni3 >= anni1 and on irrep match apply
E_{crea3,anni3} and accumulate the direct term of line 981.  A
subtraction x -= v is modelled as accumulating -v. -/
def Fill3RDM_comp (p : FCIParams) (vector : ℕ → ℚ) (st0 : RDM3State) :
    RDM3State :=
  let stC : RDM3State := { st0 with rdm := ClearVectorQ (p.L ^ 6) st0.rdm }
  (List.range p.NumIrreps).foldl (fun st irrep_center1 =>
    let length1 := getVecLength p irrep_center1
    let target_irrep1 := getIrrepProduct p.TargetIrrep irrep_center1
    (List.range p.L).foldl (fun st anni1 =>
      (rangeFrom anni1 p.L).foldl (fun st crea1 =>
        let irrep_prod1 :=
          getIrrepProduct (p.orb2irrep crea1) (p.orb2irrep anni1)
        if irrep_prod1 = irrep_center1 then
          let w1 := apply_excitation p vector crea1 anni1 p.TargetIrrep st.w1
          let st : RDM3State := { st with w1 := w1 }
          let st : RDM3State :=
            if irrep_prod1 = 0 then
              let value := FCIddotQ length1 w1 vector
              (rangeFrom anni1 p.L).foldl (fun st m =>
                (rangeFrom anni1 p.L).foldl (fun st l =>
                  let rdm1 :=
                    addAt (idx3 p.L (mkSex m crea1 l l m anni1)) value st.rdm
                  let rdm2 :=
                    addAt (idx3 p.L (mkSex crea1 l m l m anni1)) value rdm1
                  { st with rdm := rdm2 }) st) st
            else st
          (List.range p.NumIrreps).foldl (fun st irrep_center2 =>
            let length2 := getVecLength p irrep_center2
            let target_irrep2 := getIrrepProduct target_irrep1 irrep_center2
            let irrep_center3 := getIrrepProduct irrep_center1 irrep_center2
            (rangeFrom anni1 p.L).foldl (fun st crea2 =>
              (rangeFrom anni1 p.L).foldl (fun st anni2 =>
                let irrep_prod2 :=
                  getIrrepProduct (p.orb2irrep crea2) (p.orb2irrep anni2)
                if irrep_prod2 = irrep_center2 then
                  let w2 :=
                    apply_excitation p st.w1 crea2 anni2 target_irrep1 st.w2
                  let st : RDM3State := { st with w2 := w2 }
                  let st : RDM3State :=
                    if irrep_prod1 = irrep_prod2 then
                      let value := FCIddotQ length2 w2 vector
                      (rangeFrom anni1 p.L).foldl (fun st orb =>
                        let rdm1 :=
                          addAt (idx3 p.L (mkSex crea1 crea2 orb orb anni2 anni1))
                            (-value) st.rdm
                        let rdm2 :=
                          addAt (idx3 p.L (mkSex crea2 orb crea1 orb anni2 anni1))
                            (-value) rdm1
                        let rdm3 :=
                          addAt (idx3 p.L (mkSex crea2 crea1 orb anni2 orb anni1))
                            (-value) rdm2
                        { st with rdm := rdm3 }) st
                    else st
                  (rangeFrom crea2 p.L).foldl (fun st crea3 =>
                    (rangeFrom anni1 p.L).foldl (fun st anni3 =>
                      let irrep_prod3 :=
                        getIrrepProduct (p.orb2irrep crea3) (p.orb2irrep anni3)
                      if irrep_prod3 = irrep_center3 then
                        let w3 :=
                          apply_excitation p st.w2 crea3 anni3 target_irrep2
                            st.w3
                        let value := FCIddotQ (getVecLength p 0) w3 vector
                        let rdm1 :=
                          addAt
                            (idx3 p.L (mkSex crea3 crea2 crea1 anni3 anni2 anni1))
                            value st.rdm
                        { st with
                            w3 := w3
                            rdm := rdm1 }
                      else st) st) st
                else st) st) st) st
        else st) st) st) stC

/-- FCI::Fill3RDM (lines 896-1044): the computation phase followed by
the 12-fold symmetrization pass over the three_rdm buffer. -/
def Fill3RDM (p : FCIParams) (vector : ℕ → ℚ) (st0 : RDM3State) :
    RDM3State :=
  let st := Fill3RDM_comp p vector st0
  { st with rdm := make12fold p st.rdm }

/-- Specification predicate for the computation phase: every in-bounds
address whose sextet violates the total-irrep condition holds zero. -/
def rdmZeroOnForbidden (p : FCIParams) (st : RDM3State) : Prop :=
  ∀ y, sexBounded p.L y → ¬ sexOK p y → st.rdm (idx3 p.L y) = 0

/-- The caller-visible memory image after FCI::HamTimesVec
(lines 540-745): the engine with its member buffers updated, the final
contents of the caller's output buffer, and the final contents of the
caller's input buffer.  Every store in the pipeline targets the output
buffer (the clear of line 545 and the chunk copy-back) or the three
member buffers HXVworksmall/HXVworkbig1/HXVworkbig2; no statement
stores through the input pointer, so the post-call input image is the
argument itself. -/
def HamTimesVec_mem (eng : FCIEngine) (input outInit : ℕ → ℚ) :
    FCIEngine × (ℕ → ℚ) × (ℕ → ℚ) :=
  ((HamTimesVec eng input outInit).1, (HamTimesVec eng input outInit).2, input)

/-- C8: the jump table of every center irrep starts at 0, each increment is
the product of the up-determinant count with the down-determinant count of
the product irrep `u (x) c (x) target`, the vector length is the total sum
of these products over all up irreps, and it is never negative.  -/
theorem C8_jump_table_prefix_sums (p : FCIParams) (c u : ℕ) :
    irrep_center_jumps p c 0 = 0 ∧
    irrep_center_jumps p c (u + 1) - irrep_center_jumps p c u =
      numPerIrrep_up p u *
        numPerIrrep_down p (getIrrepProduct (getIrrepProduct u c) p.TargetIrrep) ∧
    getVecLength p c =
      ∑ v ∈ Finset.range p.NumIrreps,
        numPerIrrep_up p v *
          numPerIrrep_down p (getIrrepProduct (getIrrepProduct v c) p.TargetIrrep) ∧
    0 ≤ getVecLength p c := by
  refine ⟨rfl, ?_, ?_, Nat.zero_le _⟩
  · show irrep_center_jumps p c u + _ - irrep_center_jumps p c u = _
    rw [Nat.add_sub_cancel_left]
    simp only [getIrrepProduct, Nat.xor_assoc]
  · show irrep_center_jumps p c p.NumIrreps = _
    induction p.NumIrreps with
    | zero => rfl
    | succ n ih =>
      rw [Finset.sum_range_succ, ← ih]
      show irrep_center_jumps p c n + _ = _
      simp only [getIrrepProduct, Nat.xor_assoc]

/-- C2 (code bug): at the toy construction with memory budget
`maxMemWorkMB = 1/10000` MB (100 bytes), the unconstrained workspace needs
`16 * 12 = 192` bytes, which exceeds the budget; with verbosity 1 the
constructor clamps the workspace to `ceil(100/16) = 7` doubles per buffer,
but with verbosity 0 the clamp (which lives inside the
`if ( FCIverbose>0 )` block of FCI::StartupIrrepCenter) is skipped and the
two working buffers keep `2 * 8 * 12 = 192 > 100` bytes. -/
theorem C2_memory_clamp_skipped_when_not_verbose :
    HXVsizeWorkspace_base toyParams = 12 ∧
    HXVsizeWorkspace toyParams (1 / 10000) 1 = 7 ∧
    HXVsizeWorkspace toyParams (1 / 10000) 0 = 12 ∧
    ¬ (2 * 8 * (HXVsizeWorkspace toyParams (1 / 10000) 0) : ℚ) ≤
        (1 / 10000) * 1000000 := by
  have hbase : HXVsizeWorkspace_base toyParams = 12 := by decide
  refine ⟨hbase, ?_, ?_, ?_⟩
  · rw [HXVsizeWorkspace, hbase]
    rw [if_pos ⟨by norm_num, by norm_num⟩]
    norm_num
    rw [show (25 : ℚ) / 4 = 6 + 1 / 4 by norm_num]
    rw [Nat.ceil_eq_iff (by norm_num)]
    norm_num
  · rw [HXVsizeWorkspace, hbase]
    rw [if_neg (by rintro ⟨h, -⟩; exact absurd h (by norm_num))]
  · rw [HXVsizeWorkspace, hbase]
    rw [if_neg (by rintro ⟨h, -⟩; exact absurd h (by norm_num))]
    norm_num

/-- Generic fact about counter assignment in ascending bitstring order:
the element of the filtered range that sits at the position given by the
number of earlier matching elements is the element itself. -/
theorem filter_range_getElem_cntBelow (q : ℕ → Bool) (n s : ℕ) (hs : s < n)
    (hq : q s = true) :
    ((List.range n).filter q)[((List.range s).filter q).length]? = some s := by
  induction n with
  | zero => omega
  | succ n ih =>
    rw [List.range_succ, List.filter_append]
    rcases Nat.lt_or_ge s n with h | h
    · have := ih h
      have hlen : ((List.range s).filter q).length < ((List.range n).filter q).length := by
        rcases List.getElem?_eq_some_iff.mp this with ⟨hl, -⟩
        exact hl
      rw [List.getElem?_append_left hlen, this]
    · have hsn : s = n := by omega
      subst hsn
      rw [List.getElem?_append_right (le_refl _), Nat.sub_self]
      simp [hq]

/-- The dense counter of a member bitstring points back at the bitstring:
`cnt2str[b][str2cnt[b][s]] = s` (FCI::StartupCountersVsBitstrings). -/
theorem cnt2str_str2cnt (p : FCIParams) (nel b s : ℕ) (hs : s < 2 ^ p.L)
    (hq : detOK p nel b s = true) :
    str2cnt p nel b s = (((List.range s).filter (fun t => detOK p nel b t)).length : ℤ) ∧
    cnt2str p nel b (str2cnt p nel b s).toNat = s := by
  have hmem := filter_range_getElem_cntBelow (fun t => detOK p nel b t) (2 ^ p.L) s hs hq
  have hcnt : str2cnt p nel b s =
      (((List.range s).filter (fun t => detOK p nel b t)).length : ℤ) := by
    rw [str2cnt, if_pos hq]
  refine ⟨hcnt, ?_⟩
  rw [hcnt]
  rw [Int.toNat_ofNat]
  rcases List.getElem?_eq_some_iff.mp hmem with ⟨hl, hv⟩
  rw [cnt2str, detList, List.getD_eq_getElem?_getD, List.getElem?_eq_getElem hl, hv]
  rfl

/-- Every dense counter below the block size decodes to a bitstring whose
`str2cnt` entry is the counter itself. -/
theorem str2cnt_cnt2str (p : FCIParams) (nel b c : ℕ) (hc : c < numPerIrrep p nel b) :
    detOK p nel b (cnt2str p nel b c) = true ∧
    cnt2str p nel b c < 2 ^ p.L ∧
    str2cnt p nel b (cnt2str p nel b c) = (c : ℤ) := by
  have hc' : c < (detList p nel b).length := hc
  have hget : (detList p nel b)[c]? = some (cnt2str p nel b c) := by
    rw [cnt2str, List.getD_eq_getElem?_getD, List.getElem?_eq_getElem hc']
    rfl
  have hmem : cnt2str p nel b c ∈ detList p nel b := by
    rcases List.getElem?_eq_some_iff.mp hget with ⟨hl, hv⟩
    exact hv ▸ List.getElem_mem hl
  rw [detList, List.mem_filter, List.mem_range] at hmem
  refine ⟨hmem.2, hmem.1, ?_⟩
  have hidx : (detList p nel b)[((List.range (cnt2str p nel b c)).filter
      (fun t => detOK p nel b t)).length]? = some (cnt2str p nel b c) :=
    filter_range_getElem_cntBelow (fun t => detOK p nel b t) (2 ^ p.L)
      (cnt2str p nel b c) hmem.1 hmem.2
  have hnodup : (detList p nel b).Nodup := (List.nodup_range _).filter _
  have hcc : ((List.range (cnt2str p nel b c)).filter (fun t => detOK p nel b t)).length
      = c := by
    rcases List.getElem?_eq_some_iff.mp hidx with ⟨hl, -⟩
    exact List.getElem?_inj hl hnodup (by rw [hidx, hget])
  rw [str2cnt, if_pos hmem.2, hcc]

/-- Irreps computed by the occupied-orbital product stay below the group
order when the group order is a power of two and every orbital irrep is
in range. -/
theorem irrepOfL_lt (p : FCIParams) (s k : ℕ) (hpow : p.NumIrreps = 2 ^ k)
    (horb : ∀ o, o < p.L → p.orb2irrep o < p.NumIrreps) :
    ∀ n, n ≤ p.L → irrepOfL p s n < p.NumIrreps := by
  intro n hn
  induction n with
  | zero => rw [irrepOfL, hpow]; exact Nat.pos_pow_of_pos k (by norm_num)
  | succ m ih =>
    rw [irrepOfL]
    have hm := ih (by omega)
    by_cases hbit : s.testBit m
    · rw [if_pos hbit, getIrrepProduct, hpow]
      exact Nat.xor_lt_two_pow (hpow ▸ hm) (hpow ▸ horb m (by omega))
    · rw [if_neg hbit]; exact hm

/-- C4: for each spin channel (the statement is generic in the channel's
electron count `nel`, so it covers `Nel_up` and `Nel_down` alike) the
constructor's tables form a bijection: a bitstring with the channel's
electron count gets a dense counter in exactly the irrep given by its
occupied-orbital product and -1 in every other irrep, a bitstring with
any other electron count gets -1 everywhere, and `str2cnt` and `cnt2str`
are mutually inverse on the assigned entries. -/
theorem C4_str2cnt_cnt2str_bijection (p : FCIParams) (nel k : ℕ)
    (hpow : p.NumIrreps = 2 ^ k)
    (horb : ∀ o, o < p.L → p.orb2irrep o < p.NumIrreps) :
    (∀ s, s < 2 ^ p.L → popcountL s p.L = nel →
      irrepOfL p s p.L < p.NumIrreps ∧
      0 ≤ str2cnt p nel (irrepOfL p s p.L) s ∧
      (∀ b, b ≠ irrepOfL p s p.L → str2cnt p nel b s = -1)) ∧
    (∀ s, popcountL s p.L ≠ nel → ∀ b, str2cnt p nel b s = -1) ∧
    (∀ b c, c < numPerIrrep p nel b →
      str2cnt p nel b (cnt2str p nel b c) = (c : ℤ)) ∧
    (∀ b s, s < 2 ^ p.L → str2cnt p nel b s ≠ -1 →
      cnt2str p nel b (str2cnt p nel b s).toNat = s) := by
  refine ⟨?_, ?_, ?_, ?_⟩
  · intro s hs hcount
    have hq : detOK p nel (irrepOfL p s p.L) s = true := by
      rw [detOK, hcount]
      simp
    refine ⟨irrepOfL_lt p s k hpow horb p.L (le_refl _), ?_, ?_⟩
    · rw [(cnt2str_str2cnt p nel _ s hs hq).1]
      exact Int.ofNat_nonneg _
    · intro b hb
      rw [str2cnt, if_neg]
      rw [detOK]
      simp only [Bool.and_eq_true, beq_iff_eq, not_and]
      intro _ h
      exact hb h.symm
  · intro s hcount b
    rw [str2cnt, if_neg]
    rw [detOK]
    simp only [Bool.and_eq_true, beq_iff_eq, not_and]
    intro h
    exact absurd h hcount
  · intro b c hc
    exact (str2cnt_cnt2str p nel b c hc).2.2
  · intro b s hs hne
    have hq : detOK p nel b s = true := by
      by_contra hq
      rw [str2cnt, if_neg (by simpa using hq)] at hne
      exact hne rfl
    exact (cnt2str_str2cnt p nel b s hs hq).2

/-- Witness for C4 at a concrete construction: the toy system with two
orbitals, a single irrep and one electron in the channel. -/
theorem C4_str2cnt_cnt2str_bijection_witness :
    (∀ s, s < 2 ^ toyParams.L → popcountL s toyParams.L = 1 →
      irrepOfL toyParams s toyParams.L < toyParams.NumIrreps ∧
      0 ≤ str2cnt toyParams 1 (irrepOfL toyParams s toyParams.L) s ∧
      (∀ b, b ≠ irrepOfL toyParams s toyParams.L → str2cnt toyParams 1 b s = -1)) ∧
    (∀ s, popcountL s toyParams.L ≠ 1 → ∀ b, str2cnt toyParams 1 b s = -1) ∧
    (∀ b c, c < numPerIrrep toyParams 1 b →
      str2cnt toyParams 1 b (cnt2str toyParams 1 b c) = (c : ℤ)) ∧
    (∀ b s, s < 2 ^ toyParams.L → str2cnt toyParams 1 b s ≠ -1 →
      cnt2str toyParams 1 b (str2cnt toyParams 1 b s).toNat = s) :=
  C4_str2cnt_cnt2str_bijection toyParams 1 0 (by decide) (by decide)

/-- Toggling bit `i` leaves every other bit unchanged and flips bit `i`. -/
theorem testBit_toggle (s i k : ℕ) :
    (s ^^^ 2 ^ i).testBit k = if k = i then !(s.testBit i) else s.testBit k := by
  rcases eq_or_ne k i with h | h
  · subst h
    rw [if_pos rfl, Nat.testBit_xor, Nat.testBit_two_pow_self]
    cases s.testBit k <;> rfl
  · rw [if_neg h, Nat.testBit_xor, Nat.testBit_two_pow_of_ne (Ne.symm h)]
    cases s.testBit k <;> rfl

/-- The occupied count over a range is monotone in the range bound. -/
theorem popcountL_mono (s : ℕ) {m n : ℕ} (h : m ≤ n) :
    popcountL s m ≤ popcountL s n := by
  induction n with
  | zero =>
    have hm : m = 0 := by omega
    subst hm
    exact le_refl _
  | succ n ih =>
    rcases Nat.lt_or_ge m (n + 1) with h2 | h2
    · have := ih (by omega)
      rw [popcountL]
      split <;> omega
    · have hm : m = n + 1 := by omega
      rw [hm]

/-- Bits below a bound at or before the toggled position are unaffected. -/
theorem popcountL_toggle_high (s i : ℕ) {n : ℕ} (h : n ≤ i) :
    popcountL (s ^^^ 2 ^ i) n = popcountL s n := by
  induction n with
  | zero => rfl
  | succ n ih =>
    have hne : n ≠ i := by omega
    rw [popcountL, popcountL, ih (by omega), testBit_toggle, if_neg hne]

/-- Toggling an occupied orbital below the bound lowers the count by one. -/
theorem popcountL_toggle_clear (s i : ℕ) (hbit : s.testBit i = true) {n : ℕ}
    (h : i < n) : popcountL (s ^^^ 2 ^ i) n + 1 = popcountL s n := by
  induction n with
  | zero => omega
  | succ n ih =>
    rcases Nat.lt_or_ge i n with h2 | h2
    · have hne : n ≠ i := by omega
      rw [popcountL, popcountL, testBit_toggle, if_neg hne]
      have := ih h2
      omega
    · have hin : i = n := by omega
      subst hin
      rw [popcountL, popcountL, testBit_toggle, if_pos rfl, hbit,
        popcountL_toggle_high s i (le_refl i)]
      simp

/-- Toggling a free orbital below the bound raises the count by one. -/
theorem popcountL_toggle_set (s i : ℕ) (hbit : s.testBit i = false) {n : ℕ}
    (h : i < n) : popcountL (s ^^^ 2 ^ i) n = popcountL s n + 1 := by
  induction n with
  | zero => omega
  | succ n ih =>
    rcases Nat.lt_or_ge i n with h2 | h2
    · have hne : n ≠ i := by omega
      rw [popcountL, popcountL, testBit_toggle, if_neg hne]
      have := ih h2
      omega
    · have hin : i = n := by omega
      subst hin
      rw [popcountL, popcountL, testBit_toggle, if_pos rfl, hbit,
        popcountL_toggle_high s i (le_refl i)]
      simp

/-- Toggling a bit multiplies the occupied-orbital irrep product by the
irrep of the toggled orbital (the product is a XOR, hence involutive). -/
theorem irrepOfL_toggle (p : FCIParams) (s i : ℕ) (n : ℕ) :
    irrepOfL p (s ^^^ 2 ^ i) n =
      if i < n then getIrrepProduct (irrepOfL p s n) (p.orb2irrep i)
      else irrepOfL p s n := by
  induction n with
  | zero =>
    rw [if_neg (show ¬ i < 0 by omega)]
    rfl
  | succ n ih =>
    rcases Nat.lt_or_ge i n with h2 | h2
    · have hne : n ≠ i := by omega
      rw [if_pos (show i < n + 1 by omega)]
      simp only [irrepOfL]
      rw [testBit_toggle, if_neg hne, ih, if_pos h2]
      by_cases hbit : s.testBit n = true
      · rw [hbit, if_pos rfl, if_pos rfl]
        simp only [getIrrepProduct]
        rw [Nat.xor_assoc, Nat.xor_assoc, Nat.xor_comm (p.orb2irrep i)]
      · rw [Bool.not_eq_true] at hbit
        rw [hbit, if_neg (show ¬ false = true by decide),
          if_neg (show ¬ false = true by decide)]
    · rcases Nat.lt_or_ge i (n + 1) with h3 | h3
      · have hin : i = n := by omega
        subst hin
        rw [if_pos h3]
        simp only [irrepOfL]
        rw [testBit_toggle, if_pos rfl, ih, if_neg (show ¬ i < i by omega)]
        by_cases hbit : s.testBit i = true
        · rw [hbit]
          simp [getIrrepProduct, Nat.xor_assoc]
        · rw [Bool.not_eq_true] at hbit
          rw [hbit]
          simp [getIrrepProduct]
      · have hne : n ≠ i := by omega
        rw [if_neg (show ¬ i < n + 1 by omega)]
        simp only [irrepOfL]
        rw [testBit_toggle, if_neg hne, ih, if_neg (show ¬ i < n by omega)]

/-- C1: at every irrep block, determinant counter of the block and orbital
pair, the stored lookup sign is nonzero exactly when the creator orbital
is occupied in the decoded bitstring and the annihilator orbital is free
once the creator bit is cleared; when nonzero the sign is the parity of
the occupied orbitals strictly between the two orbitals, and the stored
(old irrep, old counter) pair identifies the originating determinant: a
determinant of the same electron count whose irrep is the product of the
block irrep with the two orbital irreps, and which the single excitation
E_{ij} (annihilate j, create i) maps back onto the decoded bitstring.
The statement is generic in the channel electron count `nel`, covering
lookup_sign_alpha and lookup_sign_beta alike. -/
theorem C1_excitation_lookup_tables (p : FCIParams) (nel b c i j : ℕ)
    (hc : c < numPerIrrep p nel b) (hi : i < p.L) (hj : j < p.L) :
    (lookup_sign p nel b c i j ≠ 0 ↔
      excitationAllowed (cnt2str p nel b c) i j = true) ∧
    (excitationAllowed (cnt2str p nel b c) i j = true →
      lookup_sign p nel b c i j =
        (-1 : ℤ) ^ occupiedBetween (cnt2str p nel b c) i j ∧
      popcountL (excitedString (cnt2str p nel b c) i j) p.L = nel ∧
      irrepOfL p (excitedString (cnt2str p nel b c) i j) p.L =
        lookup_irrep p nel b c i j ∧
      lookup_irrep p nel b c i j =
        getIrrepProduct b (getIrrepProduct (p.orb2irrep i) (p.orb2irrep j)) ∧
      lookup_cnt p nel b c i j =
        str2cnt p nel (lookup_irrep p nel b c i j)
          (excitedString (cnt2str p nel b c) i j) ∧
      0 ≤ lookup_cnt p nel b c i j ∧
      cnt2str p nel (lookup_irrep p nel b c i j) (lookup_cnt p nel b c i j).toNat =
        excitedString (cnt2str p nel b c) i j ∧
      (excitedString (cnt2str p nel b c) i j).testBit j = true ∧
      (excitedString (cnt2str p nel b c) i j ^^^ 2 ^ j).testBit i = false ∧
      (excitedString (cnt2str p nel b c) i j ^^^ 2 ^ j) ^^^ 2 ^ i =
        cnt2str p nel b c) := by
  obtain ⟨hdet, hslt, -⟩ := str2cnt_cnt2str p nel b c hc
  set s := cnt2str p nel b c with hs
  have hpc : popcountL s p.L = nel := by
    have := hdet
    rw [detOK, Bool.and_eq_true, beq_iff_eq, beq_iff_eq] at this
    exact this.1
  have hirr : irrepOfL p s p.L = b := by
    have := hdet
    rw [detOK, Bool.and_eq_true, beq_iff_eq, beq_iff_eq] at this
    exact this.2
  constructor
  · constructor
    · intro hne
      by_contra hallow
      rw [lookup_sign, if_neg (by simpa using hallow)] at hne
      exact hne rfl
    · intro hallow
      rw [lookup_sign, if_pos (by simpa using hallow)]
      exact mul_ne_zero (pow_ne_zero _ (by norm_num)) (pow_ne_zero _ (by norm_num))
  · intro hallow
    rw [excitationAllowed, Bool.and_eq_true, Bool.not_eq_true'] at hallow
    obtain ⟨hbi, hbj⟩ := hallow
    have hallow' : excitationAllowed s i j = true := by
      rw [excitationAllowed, hbi, hbj]
      rfl
    have holdpc : popcountL (excitedString s i j) p.L = nel := by
      rw [excitedString]
      rw [popcountL_toggle_set (s ^^^ 2 ^ i) j hbj hj]
      have := popcountL_toggle_clear s i hbi hi
      omega
    have holdirr : irrepOfL p (excitedString s i j) p.L =
        getIrrepProduct b (getIrrepProduct (p.orb2irrep i) (p.orb2irrep j)) := by
      rw [excitedString, irrepOfL_toggle, if_pos hj, irrepOfL_toggle, if_pos hi, hirr]
      simp only [getIrrepProduct]
      rw [Nat.xor_assoc]
    have hirrval : lookup_irrep p nel b c i j =
        getIrrepProduct b (getIrrepProduct (p.orb2irrep i) (p.orb2irrep j)) := by
      rw [lookup_irrep]
      rw [if_pos hallow']
    have holddet : detOK p nel (lookup_irrep p nel b c i j) (excitedString s i j)
        = true := by
      rw [detOK, Bool.and_eq_true, beq_iff_eq, beq_iff_eq]
      exact ⟨holdpc, by rw [holdirr, hirrval]⟩
    have holdlt : excitedString s i j < 2 ^ p.L := by
      have h2i : (2 : ℕ) ^ i < 2 ^ p.L := Nat.pow_lt_pow_right (by norm_num) hi
      have h2j : (2 : ℕ) ^ j < 2 ^ p.L := Nat.pow_lt_pow_right (by norm_num) hj
      exact Nat.xor_lt_two_pow (Nat.xor_lt_two_pow hslt h2i) h2j
    have hcntval : lookup_cnt p nel b c i j =
        str2cnt p nel (lookup_irrep p nel b c i j) (excitedString s i j) := by
      rw [lookup_cnt]
      rw [if_pos hallow']
    obtain ⟨hstr, hround⟩ := cnt2str_str2cnt p nel (lookup_irrep p nel b c i j)
      (excitedString s i j) holdlt holddet
    refine ⟨?_, holdpc, by rw [holdirr, hirrval], hirrval, hcntval, ?_, ?_, ?_, ?_, ?_⟩
    · -- the sign value: parity of the occupied orbitals strictly between i and j
      rw [lookup_sign, if_pos hallow']
      rcases Nat.lt_trichotomy i j with hij | hij | hij
      · have hsbj : s.testBit j = false := by
          rw [testBit_toggle, if_neg (by omega)] at hbj
          exact hbj
        have h1 : popcountL s (i + 1) = popcountL s i + 1 := by
          rw [popcountL, hbi]
          simp
        have h2 : popcountL (s ^^^ 2 ^ i) j + 1 = popcountL s j :=
          popcountL_toggle_clear s i hbi hij
        have h3 : popcountL s (i + 1) ≤ popcountL s j := popcountL_mono s (by omega)
        have hbtw : occupiedBetween s i j =
            popcountL s j - popcountL s (i + 1) := by
          rw [occupiedBetween, max_eq_right (by omega : i ≤ j),
            min_eq_left (by omega : i ≤ j)]
        have hexp : popcountL s i + popcountL (s ^^^ 2 ^ i) j =
            2 * popcountL s i + occupiedBetween s i j := by
          rw [hbtw]; omega
        rw [← pow_add, hexp, pow_add, pow_mul]
        norm_num
      · subst hij
        have h2 : popcountL (s ^^^ 2 ^ i) i = popcountL s i :=
          popcountL_toggle_high s i (le_refl i)
        have hbtw : occupiedBetween s i i = 0 := by
          rw [occupiedBetween, max_self, min_self]
          have : popcountL s (i + 1) = popcountL s i + 1 := by
            rw [popcountL, hbi]
            simp
          omega
        rw [h2, ← pow_add, hbtw]
        have : Even (popcountL s i + popcountL s i) := ⟨popcountL s i, rfl⟩
        rw [Even.neg_one_pow this]
        rfl
      · have hsbj : s.testBit j = false := by
          rw [testBit_toggle, if_neg (by omega)] at hbj
          exact hbj
        have h1 : popcountL s (j + 1) = popcountL s j := by
          rw [popcountL, hsbj]
          simp
        have h2 : popcountL (s ^^^ 2 ^ i) j = popcountL s j :=
          popcountL_toggle_high s i (by omega)
        have h3 : popcountL s (j + 1) ≤ popcountL s i := popcountL_mono s (by omega)
        have hbtw : occupiedBetween s i j =
            popcountL s i - popcountL s (j + 1) := by
          rw [occupiedBetween, max_eq_left (by omega : j ≤ i),
            min_eq_right (by omega : j ≤ i)]
        have hexp : popcountL s i + popcountL (s ^^^ 2 ^ i) j =
            2 * popcountL s j + occupiedBetween s i j := by
          rw [hbtw, h2]; omega
        rw [← pow_add, hexp, pow_add, pow_mul]
        norm_num
    · rw [hcntval, str2cnt, if_pos holddet]
      exact Int.ofNat_nonneg _
    · rw [hcntval]
      exact hround
    · rw [excitedString, testBit_toggle, if_pos rfl, hbj]
      rfl
    · rw [excitedString, Nat.xor_assoc (s ^^^ 2 ^ i) (2 ^ j) (2 ^ j),
        Nat.xor_self, Nat.xor_zero, testBit_toggle, if_pos rfl, hbi]
      rfl
    · rw [excitedString, Nat.xor_assoc (s ^^^ 2 ^ i) (2 ^ j) (2 ^ j),
        Nat.xor_self, Nat.xor_zero, Nat.xor_assoc s (2 ^ i) (2 ^ i),
        Nat.xor_self, Nat.xor_zero]

/-- Witness for C1 at a concrete entry of the toy construction: block
irrep 0, counter 0 (bitstring 01), creator 0, annihilator 1. -/
theorem C1_excitation_lookup_tables_witness :
    (lookup_sign toyParams 1 0 0 0 1 ≠ 0 ↔
      excitationAllowed (cnt2str toyParams 1 0 0) 0 1 = true) ∧
    (excitationAllowed (cnt2str toyParams 1 0 0) 0 1 = true →
      lookup_sign toyParams 1 0 0 0 1 =
        (-1 : ℤ) ^ occupiedBetween (cnt2str toyParams 1 0 0) 0 1 ∧
      popcountL (excitedString (cnt2str toyParams 1 0 0) 0 1) toyParams.L = 1 ∧
      irrepOfL toyParams (excitedString (cnt2str toyParams 1 0 0) 0 1) toyParams.L =
        lookup_irrep toyParams 1 0 0 0 1 ∧
      lookup_irrep toyParams 1 0 0 0 1 =
        getIrrepProduct 0 (getIrrepProduct (toyParams.orb2irrep 0) (toyParams.orb2irrep 1)) ∧
      lookup_cnt toyParams 1 0 0 0 1 =
        str2cnt toyParams 1 (lookup_irrep toyParams 1 0 0 0 1)
          (excitedString (cnt2str toyParams 1 0 0) 0 1) ∧
      0 ≤ lookup_cnt toyParams 1 0 0 0 1 ∧
      cnt2str toyParams 1 (lookup_irrep toyParams 1 0 0 0 1)
          (lookup_cnt toyParams 1 0 0 0 1).toNat =
        excitedString (cnt2str toyParams 1 0 0) 0 1 ∧
      (excitedString (cnt2str toyParams 1 0 0) 0 1).testBit 1 = true ∧
      (excitedString (cnt2str toyParams 1 0 0) 0 1 ^^^ 2 ^ 1).testBit 0 = false ∧
      (excitedString (cnt2str toyParams 1 0 0) 0 1 ^^^ 2 ^ 1) ^^^ 2 ^ 0 =
        cnt2str toyParams 1 0 0) :=
  C1_excitation_lookup_tables toyParams 1 0 0 0 1 (by decide) (by decide) (by decide)

/-- C7: each listed precondition violation terminates execution (none)
instead of returning a value: electron counts above the orbital count or
a non-positive memory budget in the constructor, a zero imaginary shift
in CGSolveSystem, and an out-of-range orbital index or mismatched orbital
counts in ActWithSecondQuantizedOperator. -/
theorem C7_precondition_asserts :
    (∀ (L NumIrreps : ℕ) (o2i : ℕ → ℕ) (nu nd t : ℕ) (mem : ℚ),
      L < nu → FCI_construct L NumIrreps o2i nu nd t mem = none) ∧
    (∀ (L NumIrreps : ℕ) (o2i : ℕ → ℕ) (nu nd t : ℕ) (mem : ℚ),
      L < nd → FCI_construct L NumIrreps o2i nu nd t mem = none) ∧
    (∀ (L NumIrreps : ℕ) (o2i : ℕ → ℕ) (nu nd t : ℕ) (mem : ℚ),
      mem ≤ 0 → FCI_construct L NumIrreps o2i nu nd t mem = none) ∧
    CGSolveSystem_entry 0 = none ∧
    (∀ (w : Char) (orbIndex L otherL : ℕ), L ≤ orbIndex →
      ActWithSecondQuantizedOperator_entry w orbIndex L otherL = none) ∧
    (∀ (w : Char) (orbIndex L otherL : ℕ), L ≠ otherL →
      ActWithSecondQuantizedOperator_entry w orbIndex L otherL = none) := by
  refine ⟨?_, ?_, ?_, ?_, ?_, ?_⟩
  · intro L NumIrreps o2i nu nd t mem h
    rw [FCI_construct, if_neg]
    rintro ⟨h1, -, -⟩
    omega
  · intro L NumIrreps o2i nu nd t mem h
    rw [FCI_construct, if_neg]
    rintro ⟨-, h2, -⟩
    omega
  · intro L NumIrreps o2i nu nd t mem h
    rw [FCI_construct, if_neg]
    rintro ⟨-, -, h3⟩
    exact absurd h3 (by exact not_lt.mpr h)
  · rw [CGSolveSystem_entry, if_neg]
    simp
  · intro w orbIndex L otherL h
    rw [ActWithSecondQuantizedOperator_entry, if_neg]
    rintro ⟨-, h2, -⟩
    omega
  · intro w orbIndex L otherL h
    rw [ActWithSecondQuantizedOperator_entry, if_neg]
    rintro ⟨-, -, h3⟩
    exact h h3

/-- Every state of the bad CG run keeps residual vector one and cached
residual norm square one, and the loop guard keeps firing. -/
theorem CGBad_invariant_step (st : CGState)
    (h : st.RESID = (fun _ => (1 : ℝ)) ∧ st.rkT_rk = 1) :
    (CGCoreStep 1 0 (fun v => v) 0 0 1 (fun _ => 0) st).RESID = (fun _ => (1 : ℝ)) ∧
    (CGCoreStep 1 0 (fun v => v) 0 0 1 (fun _ => 0) st).rkT_rk = 1 := by
  obtain ⟨hR, hr⟩ := h
  have hop : CGOperator 0 (fun v => v) 0 0 1 (fun _ => 0) st.PVEC
      = fun _ => (0 : ℝ) := by
    funext t
    rw [CGOperator]
    ring
  constructor
  · simp only [CGCoreStep, hop, mul_zero, sub_zero]
    simp [hR]
  · simp only [CGCoreStep, hop, mul_zero, sub_zero]
    simp [hR, FCIddotR]

/-- The bad run never converges: at residual norm one the guard
`residualNorm >= threshold` holds, so every amount of fuel is
exhausted. -/
theorem CGBad_never_converges :
    ∀ fuel (st : CGState), st.RESID = (fun _ => (1 : ℝ)) → st.rkT_rk = 1 →
      CGCoreRun 1 0 (fun v => v) 0 0 1 (fun _ => 0) fuel st = none := by
  have hguard : CGRESIDUALTHRESHOLD 1 ≤ Real.sqrt 1 := by
    rw [Real.sqrt_one, CGRESIDUALTHRESHOLD, HEFF_DAVIDSON_RTOL_BASE]
    rw [Nat.cast_one, Real.sqrt_one]
    norm_num
  intro fuel
  induction fuel with
  | zero =>
    intro st hR hr
    rw [CGCoreRun, if_pos (by rw [hr]; exact hguard)]
  | succ fuel ih =>
    intro st hR hr
    rw [CGCoreRun, if_pos (by rw [hr]; exact hguard)]
    obtain ⟨hR1, hr1⟩ := CGBad_invariant_step st ⟨hR, hr⟩
    exact ih _ hR1 hr1

/-- C3 counterexample: the CG core loop of FCI::CGCoreSolver has no
iteration cap — its guard tests only the residual norm — so on the
concrete one-dimensional input with zero preconditioner the loop never
terminates: no amount of fuel makes it return. -/
theorem C3_no_iteration_cap_counterexample :
    ¬ ∃ fuel : ℕ,
      (CGCoreRun 1 0 (fun v => v) 0 0 1 (fun _ => 0) fuel CGBadInit).isSome = true := by
  rintro ⟨fuel, h⟩
  have hop : CGOperator 0 (fun v => v) 0 0 1 (fun _ => 0) (fun _ => 0)
      = fun _ => (0 : ℝ) := by
    funext t
    rw [CGOperator]
    ring
  have hR : CGBadInit.RESID = (fun _ => (1 : ℝ)) := by
    simp only [CGBadInit, CGCoreInit, hop, sub_zero]
  have hr : CGBadInit.rkT_rk = 1 := by
    simp only [CGBadInit, CGCoreInit, hop, sub_zero]
    simp [FCIddotR]
  rw [CGBad_never_converges fuel CGBadInit hR hr] at h
  exact absurd h (by simp)

/-- C3 (amended): the CG core loop terminates exactly when the residual
2-norm criterion `residualNorm < 100 * tol * sqrt(vecLength)` is met
within the available iterations; there is no iteration cap in the guard,
so no other exit exists. -/
theorem C3_cg_loop_stops_only_on_residual (n : ℕ) (Econst : ℝ)
    (Hv : (ℕ → ℝ) → ℕ → ℝ) (alpha beta eta : ℝ) (precon : ℕ → ℝ)
    (fuel : ℕ) (st : CGState) :
    (CGCoreRun n Econst Hv alpha beta eta precon fuel st).isSome = true ↔
      ∃ k, k ≤ fuel ∧
        Real.sqrt (((CGCoreStep n Econst Hv alpha beta eta precon)^[k] st).rkT_rk) <
          CGRESIDUALTHRESHOLD n := by
  induction fuel generalizing st with
  | zero =>
    rw [CGCoreRun]
    by_cases hg : CGRESIDUALTHRESHOLD n ≤ Real.sqrt st.rkT_rk
    · rw [if_pos hg]
      simp only [Option.isSome_none, Bool.false_eq_true, false_iff]
      rintro ⟨k, hk, hlt⟩
      have hk0 : k = 0 := by omega
      subst hk0
      rw [Function.iterate_zero_apply] at hlt
      exact absurd hg (not_le.mpr hlt)
    · rw [if_neg hg]
      simp only [Option.isSome_some, true_iff]
      exact ⟨0, le_refl 0, by rw [Function.iterate_zero_apply]; exact not_le.mp hg⟩
  | succ fuel ih =>
    rw [CGCoreRun]
    by_cases hg : CGRESIDUALTHRESHOLD n ≤ Real.sqrt st.rkT_rk
    · rw [if_pos hg]
      rw [ih]
      constructor
      · rintro ⟨k, hk, hlt⟩
        refine ⟨k + 1, by omega, ?_⟩
        rw [Function.iterate_succ_apply]
        exact hlt
      · rintro ⟨k, hk, hlt⟩
        match k with
        | 0 =>
          rw [Function.iterate_zero_apply] at hlt
          exact absurd hg (not_le.mpr hlt)
        | k + 1 =>
          refine ⟨k, by omega, ?_⟩
          rw [Function.iterate_succ_apply] at hlt
          exact hlt
    · rw [if_neg hg]
      simp only [Option.isSome_some, true_iff]
      exact ⟨0, by omega, by rw [Function.iterate_zero_apply]; exact not_le.mp hg⟩

/-- Agreement of two buffers on every index below a bound. -/
theorem addAt_agreeBelow (len loc : ℕ) (val : ℚ) (o1 o2 : ℕ → ℚ)
    (h : ∀ t, t < len → o1 t = o2 t) :
    ∀ t, t < len → addAt loc val o1 t = addAt loc val o2 t := by
  intro t ht
  rw [addAt, addAt]
  split
  · rw [h t ht]
  · exact h t ht

/-- A left fold preserves any relation its step function preserves. -/
theorem foldl_rel {α β : Type} (R : β → β → Prop) (step : β → α → β)
    (l : List α) (h : ∀ b1 b2 a, R b1 b2 → R (step b1 a) (step b2 a)) :
    ∀ b1 b2, R b1 b2 → R (l.foldl step b1) (l.foldl step b2) := by
  induction l with
  | nil => intro b1 b2 hb; exact hb
  | cons a l ih =>
    intro b1 b2 hb
    exact ih (step b1 a) (step b2 a) (h b1 b2 a hb)

/-- A scatter sub-loop preserves agreement below any bound. -/
theorem hxv_scatter_loop_agreeBelow (f : ℕ → Option (ℕ × ℤ))
    (pairIdx numPairs start : ℕ) (w2 : ℕ → ℚ) (chunk : List ℕ) (len : ℕ)
    (o1 o2 : ℕ → ℚ) (h : ∀ t, t < len → o1 t = o2 t) :
    ∀ t, t < len →
      hxv_scatter_loop f pairIdx numPairs start w2 chunk o1 t =
      hxv_scatter_loop f pairIdx numPairs start w2 chunk o2 t := by
  rw [hxv_scatter_loop, hxv_scatter_loop]
  refine foldl_rel (fun b1 b2 => ∀ t, t < len → b1 t = b2 t) _ chunk ?_ o1 o2 h
  intro b1 b2 v hb
  cases hfv : f v with
  | none => exact hb
  | some ls => exact addAt_agreeBelow len ls.1 _ b1 b2 hb

/-- One chunk iteration of HamTimesVec sends states with equal working
buffers and output agreement below the full vector length to states with
the same property. -/
theorem hxv_chunk_agreeBelow (p : FCIParams) (ints : FCIIntegrals)
    (input : ℕ → ℚ) (wssize center iteration : ℕ) (s1 s2 : HXVState)
    (hws : s1.worksmall = s2.worksmall) (h1 : s1.workbig1 = s2.workbig1)
    (h2 : s1.workbig2 = s2.workbig2)
    (hout : ∀ t, t < getVecLength p 0 → s1.out t = s2.out t) :
    (hxv_chunk p ints input wssize center iteration s1).worksmall =
      (hxv_chunk p ints input wssize center iteration s2).worksmall ∧
    (hxv_chunk p ints input wssize center iteration s1).workbig1 =
      (hxv_chunk p ints input wssize center iteration s2).workbig1 ∧
    (hxv_chunk p ints input wssize center iteration s1).workbig2 =
      (hxv_chunk p ints input wssize center iteration s2).workbig2 ∧
    (∀ t, t < getVecLength p 0 →
      (hxv_chunk p ints input wssize center iteration s1).out t =
      (hxv_chunk p ints input wssize center iteration s2).out t) := by
  simp only [hxv_chunk, hws, h1, h2]
  refine ⟨trivial, trivial, trivial, ?_⟩
  refine foldl_rel (fun (b1 b2 : ℕ → ℚ) => ∀ t, t < getVecLength p 0 → b1 t = b2 t)
    _ _ ?_ _ _ ?_
  · intro b1 b2 q hb
    split
    · exact hxv_scatter_loop_agreeBelow _ _ _ _ _ _ _ _ _
        (hxv_scatter_loop_agreeBelow _ _ _ _ _ _ _ _ _
          (hxv_scatter_loop_agreeBelow _ _ _ _ _ _ _ _ _
            (hxv_scatter_loop_agreeBelow _ _ _ _ _ _ _ _ _ hb)))
    · exact hxv_scatter_loop_agreeBelow _ _ _ _ _ _ _ _ _
        (hxv_scatter_loop_agreeBelow _ _ _ _ _ _ _ _ _ hb)
  · intro t ht
    simp only [hout t ht]

/-- The state relation of the chunk lemma, packaged for the folds over
chunk iterations and center irreps: the initial clear of the output
makes the two runs agree below the vector length whatever the initial
output contents were. -/
theorem hxv_run_agreeBelow (p : FCIParams) (ints : FCIIntegrals)
    (input : ℕ → ℚ) (wssize : ℕ) (s1 s2 : HXVState)
    (hws : s1.worksmall = s2.worksmall) (h1 : s1.workbig1 = s2.workbig1)
    (h2 : s1.workbig2 = s2.workbig2) :
    (HamTimesVec_run p ints input wssize s1).worksmall =
      (HamTimesVec_run p ints input wssize s2).worksmall ∧
    (HamTimesVec_run p ints input wssize s1).workbig1 =
      (HamTimesVec_run p ints input wssize s2).workbig1 ∧
    (HamTimesVec_run p ints input wssize s1).workbig2 =
      (HamTimesVec_run p ints input wssize s2).workbig2 ∧
    (∀ t, t < getVecLength p 0 →
      (HamTimesVec_run p ints input wssize s1).out t =
      (HamTimesVec_run p ints input wssize s2).out t) := by
  set R : HXVState → HXVState → Prop := fun a b =>
    a.worksmall = b.worksmall ∧ a.workbig1 = b.workbig1 ∧
    a.workbig2 = b.workbig2 ∧ ∀ t, t < getVecLength p 0 → a.out t = b.out t
    with hRdef
  have hchunk : ∀ (center : ℕ) a b, R a b →
      R (hxv_center p ints input wssize center a)
        (hxv_center p ints input wssize center b) := by
    intro center a b hab
    rw [hxv_center, hxv_center]
    refine foldl_rel R _ _ ?_ a b hab
    intro a1 b1 it h1
    obtain ⟨x1, x2, x3, x4⟩ := h1
    exact hxv_chunk_agreeBelow p ints input wssize center it a1 b1 x1 x2 x3 x4
  rw [HamTimesVec_run, HamTimesVec_run]
  refine foldl_rel R _ _ (fun a b c hab => hchunk c a b hab) _ _ ?_
  refine ⟨hws, h1, h2, ?_⟩
  intro t ht
  show ClearVectorQ (getVecLength p 0) s1.out t = ClearVectorQ (getVecLength p 0) s2.out t
  rw [ClearVectorQ, ClearVectorQ, if_pos ht, if_pos ht]

/-- C10: HamTimesVec and apply_excitation clear the caller-supplied
output buffer before accumulating, so the final contents of the output
buffer (over its vector length) are a function of the input vector
alone: two calls with equal inputs but arbitrary different initial
output contents produce identical outputs. -/
theorem C10_output_independent_of_initial_buffer :
    (∀ (eng : FCIEngine) (input a b : ℕ → ℚ) (t : ℕ),
      t < getVecLength eng.p 0 →
      (HamTimesVec eng input a).2 t = (HamTimesVec eng input b).2 t) ∧
    (∀ (p : FCIParams) (orig : ℕ → ℚ) (crea anni orig_target_irrep : ℕ)
      (a b : ℕ → ℚ) (t : ℕ),
      t < getVecLength p (getIrrepProduct p.TargetIrrep
        (getIrrepProduct (getIrrepProduct (p.orb2irrep crea) (p.orb2irrep anni))
          orig_target_irrep)) →
      apply_excitation p orig crea anni orig_target_irrep a t =
      apply_excitation p orig crea anni orig_target_irrep b t) := by
  constructor
  · intro eng input a b t ht
    exact (hxv_run_agreeBelow eng.p eng.ints input
      (HXVsizeWorkspace eng.p eng.maxMemWorkMB eng.FCIverbose)
      ⟨eng.HXVworksmall, eng.HXVworkbig1, eng.HXVworkbig2, a⟩
      ⟨eng.HXVworksmall, eng.HXVworkbig1, eng.HXVworkbig2, b⟩
      rfl rfl rfl).2.2.2 t ht
  · intro p orig crea anni oti a b t ht
    set LEN := getVecLength p (getIrrepProduct p.TargetIrrep
      (getIrrepProduct (getIrrepProduct (p.orb2irrep crea) (p.orb2irrep anni)) oti))
      with hLEN
    rw [apply_excitation, apply_excitation]
    refine foldl_rel (fun (o1 o2 : ℕ → ℚ) => ∀ u, u < LEN → o1 u = o2 u)
      _ _ ?_ _ _ ?_ t ht
    · intro o1 o2 riu ho
      refine foldl_rel (fun (o1 o2 : ℕ → ℚ) => ∀ u, u < LEN → o1 u = o2 u)
        _ _ ?_ _ _ ?_
      · intro b1 b2 rcd hb u hu
        by_cases hs : lookup_sign p p.Nel_down
            (getIrrepProduct riu (getIrrepProduct
              (getIrrepProduct (p.orb2irrep crea) (p.orb2irrep anni)) oti))
            rcd crea anni = 0
        · simp only [if_pos hs]
          exact hb u hu
        · simp only [if_neg hs]
          refine foldl_rel (fun (o1 o2 : ℕ → ℚ) => ∀ w, w < LEN → o1 w = o2 w)
            _ _ ?_ _ _ hb u hu
          intro c1 c2 cu hc
          exact addAt_agreeBelow LEN _ _ c1 c2 hc
      · refine foldl_rel (fun (o1 o2 : ℕ → ℚ) => ∀ u, u < LEN → o1 u = o2 u)
          _ _ ?_ _ _ ho
        intro b1 b2 rcu hb u hu
        by_cases hs : lookup_sign p p.Nel_up riu rcu crea anni = 0
        · simp only [if_pos hs]
          exact hb u hu
        · simp only [if_neg hs]
          refine foldl_rel (fun (o1 o2 : ℕ → ℚ) => ∀ w, w < LEN → o1 w = o2 w)
            _ _ ?_ _ _ hb u hu
          intro c1 c2 cd hc
          exact addAt_agreeBelow LEN _ _ c1 c2 hc
    · intro u hu
      rw [hLEN] at hu
      rw [ClearVectorQ, ClearVectorQ, if_pos hu, if_pos hu]

set_option maxHeartbeats 4000000 in
/-- C5: FCI::GetMatrixElement returns exactly 0 whenever the per-channel
numbers of created and annihilated electrons differ, and whenever more
than two electrons are annihilated (or created) in total — three or more
orbital substitutions; and on the spec's two-determinant toy system
(`p5`, `ints5`) it agrees entry by entry with the dense matrix built
column by column through HamTimesVec on unit basis vectors, for every
bra/ket pair of determinants. -/
theorem C5_slater_condon_matrix_elements :
    (∀ (p : FCIParams) (ints : FCIIntegrals) (bu bd ku kd : ℕ),
      (diffAnnih p.L bu ku).length ≠ (diffCreat p.L bu ku).length →
      GetMatrixElement p ints bu bd ku kd = 0) ∧
    (∀ (p : FCIParams) (ints : FCIIntegrals) (bu bd ku kd : ℕ),
      (diffAnnih p.L bd kd).length ≠ (diffCreat p.L bd kd).length →
      GetMatrixElement p ints bu bd ku kd = 0) ∧
    (∀ (p : FCIParams) (ints : FCIIntegrals) (bu bd ku kd : ℕ),
      2 < (diffAnnih p.L bu ku).length + (diffAnnih p.L bd kd).length →
      GetMatrixElement p ints bu bd ku kd = 0) ∧
    (∀ (p : FCIParams) (ints : FCIIntegrals) (bu bd ku kd : ℕ),
      2 < (diffCreat p.L bu ku).length + (diffCreat p.L bd kd).length →
      GetMatrixElement p ints bu bd ku kd = 0) ∧
    (∀ r, r < 2 → ∀ c, c < 2 →
      (HamTimesVec eng5 (basis5 c) (fun _ => 0)).2 r =
      GetMatrixElement p5 ints5 (getBitsOfCounter_up p5 0 r)
        (getBitsOfCounter_down p5 0 r) (getBitsOfCounter_up p5 0 c)
        (getBitsOfCounter_down p5 0 c)) := by
  refine ⟨?_, ?_, ?_, ?_, ?_⟩
  · intro p ints bu bd ku kd h
    simp only [GetMatrixElement]
    split_ifs <;> first | rfl | omega
  · intro p ints bu bd ku kd h
    simp only [GetMatrixElement]
    split_ifs <;> first | rfl | omega
  · intro p ints bu bd ku kd h
    simp only [GetMatrixElement]
    split_ifs <;> first | rfl | omega
  · intro p ints bu bd ku kd h
    simp only [GetMatrixElement]
    split_ifs <;> first | rfl | omega
  · have hbits0u : getBitsOfCounter_up p5 0 0 = 1 := by decide
    have hbits1u : getBitsOfCounter_up p5 0 1 = 2 := by decide
    have hbits0d : getBitsOfCounter_down p5 0 0 = 0 := by decide
    have hbits1d : getBitsOfCounter_down p5 0 1 = 0 := by decide
    have hh0 : (HamTimesVec eng5 (basis5 0) (fun _ => 0)).2 =
        (hxv_chunk p5 ints5 (basis5 0) 6 0 0
          ⟨fun _ => 0, fun _ => 0, fun _ => 0, ClearVectorQ 2 (fun _ => 0)⟩).out := rfl
    have hh1 : (HamTimesVec eng5 (basis5 1) (fun _ => 0)).2 =
        (hxv_chunk p5 ints5 (basis5 1) 6 0 0
          ⟨fun _ => 0, fun _ => 0, fun _ => 0, ClearVectorQ 2 (fun _ => 0)⟩).out := rfl
    have hm00 : GetMatrixElement p5 ints5 1 0 1 0 = 15 / 2 := by
      simp +decide [GetMatrixElement, diffAnnih, diffCreat, bitQ, occupiedBetween,
        popcountL, Finset.sum_range_succ, List.range_succ, p5, ints5]
      norm_num
    have hm01 : GetMatrixElement p5 ints5 1 0 2 0 = 25 / 2 := by
      simp +decide [GetMatrixElement, diffAnnih, diffCreat, bitQ, occupiedBetween,
        popcountL, Finset.sum_range_succ, List.range_succ, p5, ints5]
      norm_num
    have hm10 : GetMatrixElement p5 ints5 2 0 1 0 = 25 / 2 := by
      simp +decide [GetMatrixElement, diffAnnih, diffCreat, bitQ, occupiedBetween,
        popcountL, Finset.sum_range_succ, List.range_succ, p5, ints5]
      norm_num
    have hm11 : GetMatrixElement p5 ints5 2 0 2 0 = 20 := by
      simp +decide [GetMatrixElement, diffAnnih, diffCreat, bitQ, occupiedBetween,
        popcountL, Finset.sum_range_succ, List.range_succ, p5, ints5]
      norm_num
    intro r hr c hc
    interval_cases r <;> interval_cases c <;>
      simp only [hbits0u, hbits1u, hbits0d, hbits1d, hm00, hm01, hm10, hm11] <;>
      [rw [hh0]; rw [hh1]; rw [hh0]; rw [hh1]] <;>
      (simp +decide [hxv_chunk, hxv_scatter_loop, hxv_scatter_up, hxv_scatter_down,
        hxv_work1_value, hxv_up_term, hxv_down_term, addAt, ClearVectorQ,
        irrep_center_pairs, getVecLength, irrep_center_jumps, getUpIrrepOfCounter,
        getUpIrrepOfCounter_go, numPerIrrep_up, numPerIrrep_down, numPerIrrep, detList,
        detOK, lookup_sign, lookup_irrep, lookup_cnt, cnt2str, str2cnt,
        excitationAllowed, excitedString, popcountL, irrepOfL, getIrrepProduct,
        Finset.sum_range_succ, List.range_succ, p5, ints5, basis5]
       norm_num)

/-- Witness for C5 at concrete inputs: bit patterns with mismatched
created/annihilated counts, with three annihilations, and the toy
matrix entry (0, 0). -/
theorem C5_slater_condon_matrix_elements_witness :
    GetMatrixElement p5 ints5 0 0 1 0 = 0 ∧
    (HamTimesVec eng5 (basis5 0) (fun _ => 0)).2 0 =
      GetMatrixElement p5 ints5 (getBitsOfCounter_up p5 0 0)
        (getBitsOfCounter_down p5 0 0) (getBitsOfCounter_up p5 0 0)
        (getBitsOfCounter_down p5 0 0) :=
  ⟨C5_slater_condon_matrix_elements.1 p5 ints5 0 0 1 0 (by decide),
   C5_slater_condon_matrix_elements.2.2.2.2 0 (by norm_num) 0 (by norm_num)⟩

/-- C9 (amended): HamTimesVec mutates none of the engine's stored
integral data or construction parameters — the one-body matrix G, the
two-body tensor ERI, the core-energy constant, and every parameter from
which the indexing and excitation lookup tables are derived are
unchanged; the engine after the call equals the engine before with at
most its three working buffers HXVworksmall / HXVworkbig1 / HXVworkbig2
replaced, so together with the caller-supplied output buffer these are
the only memory the call writes; and the caller's input vector is left
unchanged.  Those working buffers are member buffers that
FCI::StartupIrrepCenter allocates once at construction (lines 387-389),
not buffers allocated per call. -/
theorem C9_tables_immutable_workspace_mutated (eng : FCIEngine)
    (input outInit : ℕ → ℚ) :
    (HamTimesVec eng input outInit).1.p = eng.p ∧
    (HamTimesVec eng input outInit).1.Gmat = eng.Gmat ∧
    (HamTimesVec eng input outInit).1.ERI = eng.ERI ∧
    (HamTimesVec eng input outInit).1.Econstant = eng.Econstant ∧
    (HamTimesVec eng input outInit).1.maxMemWorkMB = eng.maxMemWorkMB ∧
    (HamTimesVec eng input outInit).1.FCIverbose = eng.FCIverbose ∧
    (HamTimesVec eng input outInit).1 =
      { eng with
          HXVworksmall := (HamTimesVec eng input outInit).1.HXVworksmall
          HXVworkbig1 := (HamTimesVec eng input outInit).1.HXVworkbig1
          HXVworkbig2 := (HamTimesVec eng input outInit).1.HXVworkbig2 } ∧
    (HamTimesVec_mem eng input outInit).2.2 = input :=
  ⟨rfl, rfl, rfl, rfl, rfl, rfl, rfl, rfl⟩

/-- Witness for C9 at the concrete engine `eng9`. -/
theorem C9_tables_immutable_workspace_mutated_witness :
    (HamTimesVec eng9 (fun _ => 1) (fun _ => 0)).1.p = eng9.p ∧
    (HamTimesVec eng9 (fun _ => 1) (fun _ => 0)).1.Gmat = eng9.Gmat ∧
    (HamTimesVec eng9 (fun _ => 1) (fun _ => 0)).1.ERI = eng9.ERI ∧
    (HamTimesVec eng9 (fun _ => 1) (fun _ => 0)).1.Econstant = eng9.Econstant ∧
    (HamTimesVec eng9 (fun _ => 1) (fun _ => 0)).1.maxMemWorkMB = eng9.maxMemWorkMB ∧
    (HamTimesVec eng9 (fun _ => 1) (fun _ => 0)).1.FCIverbose = eng9.FCIverbose ∧
    (HamTimesVec eng9 (fun _ => 1) (fun _ => 0)).1 =
      { eng9 with
          HXVworksmall := (HamTimesVec eng9 (fun _ => 1) (fun _ => 0)).1.HXVworksmall
          HXVworkbig1 := (HamTimesVec eng9 (fun _ => 1) (fun _ => 0)).1.HXVworkbig1
          HXVworkbig2 := (HamTimesVec eng9 (fun _ => 1) (fun _ => 0)).1.HXVworkbig2 } ∧
    (HamTimesVec_mem eng9 (fun _ => 1) (fun _ => 0)).2.2 = (fun _ => 1) :=
  C9_tables_immutable_workspace_mutated eng9 (fun _ => 1) (fun _ => 0)

/-- C9 counterexample: HamTimesVec writes memory that is neither a
caller-supplied CI-vector buffer nor a buffer allocated in the call: on
the engine `eng9`, whose construction-allocated member buffer
HXVworksmall holds 7 everywhere, one HamTimesVec call overwrites its
entry 0 with `0.5 * ERI(0,0,0,0) = 3/2`. -/
theorem C9_workspace_not_per_call_counterexample :
    eng9.HXVworksmall 0 = 7 ∧
    (HamTimesVec eng9 (fun _ => 1) (fun _ => 0)).1.HXVworksmall 0 = 3 / 2 ∧
    (HamTimesVec eng9 (fun _ => 1) (fun _ => 0)).1.HXVworksmall 0 ≠
      eng9.HXVworksmall 0 := by
  have h : (HamTimesVec eng9 (fun _ => 1) (fun _ => 0)).1.HXVworksmall 0 =
      1 / 2 * eng9.ERI 0 0 0 0 := rfl
  refine ⟨rfl, ?_, ?_⟩
  · rw [h, show eng9.ERI 0 0 0 0 = 3 from rfl]
    norm_num
  · rw [h, show eng9.ERI 0 0 0 0 = 3 from rfl, show eng9.HXVworksmall 0 = 7 from rfl]
    norm_num

/-- Composing two group elements composes the actions. -/
theorem actRDM_actRDM (g h : RDMSym) (x : Sextet) :
    actRDM g (actRDM h x) = actRDM ⟨g.1.trans h.1, xor g.2 h.2⟩ x := by
  obtain ⟨σ, b⟩ := g
  obtain ⟨τ, c⟩ := h
  cases b <;> cases c <;> rfl

/-- The identity acts trivially. -/
theorem actRDM_one (x : Sextet) : actRDM ⟨1, false⟩ x = x := by
  obtain ⟨cx, ax⟩ := x
  rfl

/-- Every group element has an inverse action. -/
theorem actRDM_inv (g : RDMSym) (x : Sextet) :
    actRDM ⟨g.1⁻¹, g.2⟩ (actRDM g x) = x := by
  obtain ⟨σ, b⟩ := g
  obtain ⟨cx, ax⟩ := x
  cases b <;>
    (simp only [actRDM, if_pos, if_neg]
     refine Prod.ext ?_ ?_ <;> funext s <;> simp)

/-- The action preserves the in-bounds predicate. -/
theorem sexBounded_actRDM (L : ℕ) (g : RDMSym) (x : Sextet)
    (h : sexBounded L x) : sexBounded L (actRDM g x) := by
  obtain ⟨hc, ha⟩ := h
  obtain ⟨σ, b⟩ := g
  cases b
  · exact ⟨fun s => hc (σ s), fun s => ha (σ s)⟩
  · exact ⟨fun s => ha (σ s), fun s => hc (σ s)⟩

/-- Permuting three slots leaves a triple XOR unchanged. -/
theorem xor3_perm (f : Fin 3 → ℕ) (σ : Equiv.Perm (Fin 3)) :
    f (σ 0) ^^^ (f (σ 1) ^^^ f (σ 2)) = f 0 ^^^ (f 1 ^^^ f 2) := by
  have h01 : ∀ a b c : ℕ, a ^^^ (b ^^^ c) = b ^^^ (a ^^^ c) := fun a b c => by
    rw [← Nat.xor_assoc, Nat.xor_comm a b, Nat.xor_assoc]
  have hall := (by decide : ∀ τ : Equiv.Perm (Fin 3),
      (τ 0 = 0 ∧ τ 1 = 1 ∧ τ 2 = 2) ∨ (τ 0 = 1 ∧ τ 1 = 0 ∧ τ 2 = 2) ∨
      (τ 0 = 2 ∧ τ 1 = 1 ∧ τ 2 = 0) ∨ (τ 0 = 0 ∧ τ 1 = 2 ∧ τ 2 = 1) ∨
      (τ 0 = 1 ∧ τ 1 = 2 ∧ τ 2 = 0) ∨ (τ 0 = 2 ∧ τ 1 = 0 ∧ τ 2 = 1)) σ
  rcases hall with ⟨h0, h1, h2⟩ | ⟨h0, h1, h2⟩ | ⟨h0, h1, h2⟩ | ⟨h0, h1, h2⟩ |
    ⟨h0, h1, h2⟩ | ⟨h0, h1, h2⟩ <;> rw [h0, h1, h2]
  · exact h01 _ _ _
  · calc f 2 ^^^ (f 1 ^^^ f 0) = f 2 ^^^ (f 0 ^^^ f 1) := by
          rw [Nat.xor_comm (f 1) (f 0)]
      _ = f 0 ^^^ (f 2 ^^^ f 1) := h01 _ _ _
      _ = f 0 ^^^ (f 1 ^^^ f 2) := by rw [Nat.xor_comm (f 2) (f 1)]
  · rw [Nat.xor_comm (f 2) (f 1)]
  · calc f 1 ^^^ (f 2 ^^^ f 0) = f 1 ^^^ (f 0 ^^^ f 2) := by
          rw [Nat.xor_comm (f 2) (f 0)]
      _ = f 0 ^^^ (f 1 ^^^ f 2) := h01 _ _ _
  · calc f 2 ^^^ (f 0 ^^^ f 1) = f 0 ^^^ (f 2 ^^^ f 1) := h01 _ _ _
      _ = f 0 ^^^ (f 1 ^^^ f 2) := by rw [Nat.xor_comm (f 2) (f 1)]

/-- Regrouping a left-nested XOR of six terms into pairs. -/
theorem xor6_regroup (a b c d e f : ℕ) :
    ((((a ^^^ b) ^^^ c) ^^^ d) ^^^ e) ^^^ f
      = (e ^^^ f) ^^^ ((c ^^^ d) ^^^ (a ^^^ b)) := by
  calc ((((a ^^^ b) ^^^ c) ^^^ d) ^^^ e) ^^^ f
      = (((a ^^^ b) ^^^ (c ^^^ d)) ^^^ e) ^^^ f := by
        rw [Nat.xor_assoc (a ^^^ b) c d]
    _ = ((a ^^^ b) ^^^ (c ^^^ d)) ^^^ (e ^^^ f) := by
        rw [Nat.xor_assoc ((a ^^^ b) ^^^ (c ^^^ d)) e f]
    _ = (e ^^^ f) ^^^ ((a ^^^ b) ^^^ (c ^^^ d)) := Nat.xor_comm _ _
    _ = (e ^^^ f) ^^^ ((c ^^^ d) ^^^ (a ^^^ b)) := by
        rw [Nat.xor_comm (a ^^^ b) (c ^^^ d)]

/-- The six-fold irrep product of a sextet, regrouped per pair. -/
theorem sexIrrep_pairXor (p : FCIParams) (x : Sextet) :
    sexIrrep p x = pairIrr p x 0 ^^^ (pairIrr p x 1 ^^^ pairIrr p x 2) := by
  simp only [sexIrrep, pairIrr, getIrrepProduct]
  exact xor6_regroup _ _ _ _ _ _

/-- The total irrep product of a sextet is invariant under the 12-fold
group action. -/
theorem sexIrrep_actRDM (p : FCIParams) (g : RDMSym) (x : Sextet) :
    sexIrrep p (actRDM g x) = sexIrrep p x := by
  obtain ⟨σ, b⟩ := g
  rw [sexIrrep_pairXor, sexIrrep_pairXor]
  cases b
  · have hs : ∀ s, pairIrr p (actRDM ⟨σ, false⟩ x) s = pairIrr p x (σ s) :=
      fun s => rfl
    rw [hs, hs, hs]
    exact xor3_perm (pairIrr p x) σ
  · have hs : ∀ s, pairIrr p (actRDM ⟨σ, true⟩ x) s = pairIrr p x (σ s) :=
      fun s => Nat.xor_comm _ _
    rw [hs, hs, hs]
    exact xor3_perm (pairIrr p x) σ

/-- The write-eligibility predicate is invariant under the group action. -/
theorem sexOK_actRDM (p : FCIParams) (g : RDMSym) (x : Sextet) :
    sexOK p (actRDM g x) ↔ sexOK p x := by
  unfold sexOK
  rw [sexIrrep_actRDM]

/-- A digit below the base keeps a bounded payload bounded. -/
theorem digitBound {L a M r : ℕ} (ha : a < L) (hr : r < M) :
    a + L * r < L * M := by
  calc a + L * r < L + L * r := by omega
    _ = L * (r + 1) := by ring
    _ ≤ L * M := Nat.mul_le_mul_left L hr

/-- The flat 3-RDM address of an in-bounds sextet is below the tensor size. -/
theorem idx3_lt (L : ℕ) (x : Sextet) (h : sexBounded L x) :
    idx3 L x < L ^ 6 := by
  obtain ⟨hc, ha⟩ := h
  have h1 : x.2 1 + L * x.2 2 < L * L := digitBound (ha 1) (ha 2)
  have h2 : x.2 0 + L * (x.2 1 + L * x.2 2) < L * (L * L) :=
    digitBound (ha 0) h1
  have h3 : x.1 2 + L * (x.2 0 + L * (x.2 1 + L * x.2 2)) < L * (L * (L * L)) :=
    digitBound (hc 2) h2
  have h4 : x.1 1 + L * (x.1 2 + L * (x.2 0 + L * (x.2 1 + L * x.2 2)))
      < L * (L * (L * (L * L))) := digitBound (hc 1) h3
  have h5 := digitBound (hc 0) h4
  calc idx3 L x < L * (L * (L * (L * (L * L)))) := h5
    _ = L ^ 6 := by ring

/-- Separating the lowest digit of a base-L pair of digits. -/
theorem addMulCancel {L a b r t : ℕ} (ha : a < L) (hb : b < L)
    (h : a + L * r = b + L * t) : a = b ∧ r = t := by
  have h1 : (a + L * r) % L = a := by
    rw [Nat.add_mul_mod_self_left]
    exact Nat.mod_eq_of_lt ha
  have h2 : (b + L * t) % L = b := by
    rw [Nat.add_mul_mod_self_left]
    exact Nat.mod_eq_of_lt hb
  have hab : a = b := by rw [← h1, ← h2, h]
  refine ⟨hab, ?_⟩
  have hL : 0 < L := by omega
  have : L * r = L * t := by omega
  exact Nat.eq_of_mul_eq_mul_left hL this

/-- The flat address determines the sextet on in-bounds sextets. -/
theorem idx3_inj {L : ℕ} {x y : Sextet} (hx : sexBounded L x)
    (hy : sexBounded L y) (h : idx3 L x = idx3 L y) : x = y := by
  obtain ⟨hxc, hxa⟩ := hx
  obtain ⟨hyc, hya⟩ := hy
  unfold idx3 at h
  obtain ⟨e1, h⟩ := addMulCancel (hxc 0) (hyc 0) h
  obtain ⟨e2, h⟩ := addMulCancel (hxc 1) (hyc 1) h
  obtain ⟨e3, h⟩ := addMulCancel (hxc 2) (hyc 2) h
  obtain ⟨e4, h⟩ := addMulCancel (hxa 0) (hya 0) h
  obtain ⟨e5, e6⟩ := addMulCancel (hxa 1) (hya 1) h
  have hfin : ∀ s : Fin 3, s = 0 ∨ s = 1 ∨ s = 2 := by decide
  refine Prod.ext ?_ ?_ <;> funext s <;> rcases hfin s with rfl | rfl | rfl <;>
    assumption

/-- Rebuilding a sextet from its six components. -/
theorem mkSex_eta (x : Sextet) :
    x = mkSex (x.1 0) (x.1 1) (x.1 2) (x.2 0) (x.2 1) (x.2 2) := by
  have hfin : ∀ s : Fin 3, s = 0 ∨ s = 1 ∨ s = 2 := by decide
  refine Prod.ext ?_ ?_ <;> funext s <;> rcases hfin s with rfl | rfl | rfl <;>
    rfl

/-- Membership in the ascending loop list. -/
theorem rangeFrom_mem (a b n : ℕ) : n ∈ rangeFrom a b ↔ a ≤ n ∧ n < b := by
  simp only [rangeFrom, List.mem_map, List.mem_range]
  constructor
  · rintro ⟨k, hk, rfl⟩
    omega
  · rintro ⟨h1, h2⟩
    exact ⟨n - a, by omega, by omega⟩

/-- XOR of naturals vanishes exactly on equal arguments. -/
theorem xorEqZero {a b : ℕ} : a ^^^ b = 0 ↔ a = b := by
  constructor
  · intro h
    have := congrArg (fun t => t ^^^ b) h
    simpa [Nat.xor_assoc] using this
  · intro h
    rw [h]
    exact Nat.xor_self b

/-- The canonical sextets of the symmetrization loop nest are exactly
the in-bounds, irrep-allowed sextets whose last annihilator is a global
minimum and whose first two creators are in decreasing order. -/
theorem canonList_mem (p : FCIParams) (x : Sextet) :
    x ∈ canonList p ↔
      sexBounded p.L x ∧ sexOK p x ∧ x.2 2 ≤ x.1 2 ∧ x.2 2 ≤ x.1 1 ∧
        x.2 2 ≤ x.2 1 ∧ x.1 1 ≤ x.1 0 ∧ x.2 2 ≤ x.2 0 := by
  simp only [canonList, List.mem_flatMap, List.mem_filterMap, rangeFrom,
    List.mem_map, List.mem_range]
  constructor
  · rintro ⟨anni1, ha1, crea1, ⟨k1, hk1, rfl⟩, crea2, ⟨k2, hk2, rfl⟩, anni2,
      ⟨k3, hk3, rfl⟩, crea3, ⟨k4, hk4, rfl⟩, anni3, ⟨k5, hk5, rfl⟩, hsome⟩
    by_cases hc : getIrrepProduct (getIrrepProduct (getIrrepProduct
        (getIrrepProduct (p.orb2irrep (anni1 + k1)) (p.orb2irrep anni1))
        (p.orb2irrep (anni1 + k2))) (p.orb2irrep (anni1 + k3)))
        (p.orb2irrep (anni1 + k2 + k4)) = p.orb2irrep (anni1 + k5)
    · rw [if_pos hc] at hsome
      obtain rfl := Option.some.inj hsome
      have hfin : ∀ s : Fin 3, s = 0 ∨ s = 1 ∨ s = 2 := by decide
      refine ⟨⟨fun s => ?_, fun s => ?_⟩, ?_, ?_, ?_, ?_, ?_, ?_⟩
      · rcases hfin s with rfl | rfl | rfl <;>
          simp only [mkSex, Matrix.cons_val_zero, Matrix.cons_val_one,
            Matrix.head_cons, Matrix.cons_val_two, Matrix.tail_cons] <;> omega
      · rcases hfin s with rfl | rfl | rfl <;>
          simp only [mkSex, Matrix.cons_val_zero, Matrix.cons_val_one,
            Matrix.head_cons, Matrix.cons_val_two, Matrix.tail_cons] <;> omega
      · show sexIrrep p _ = 0
        have : sexIrrep p (mkSex (anni1 + k2 + k4) (anni1 + k2) (anni1 + k1)
            (anni1 + k5) (anni1 + k3) anni1) = getIrrepProduct
            (getIrrepProduct (getIrrepProduct (getIrrepProduct
              (getIrrepProduct (p.orb2irrep (anni1 + k1)) (p.orb2irrep anni1))
              (p.orb2irrep (anni1 + k2))) (p.orb2irrep (anni1 + k3)))
              (p.orb2irrep (anni1 + k2 + k4))) (p.orb2irrep (anni1 + k5)) :=
          rfl
        rw [this, hc]
        exact Nat.xor_self _
      all_goals
        simp only [mkSex, Matrix.cons_val_zero, Matrix.cons_val_one,
          Matrix.head_cons, Matrix.cons_val_two, Matrix.tail_cons] <;> omega
    · rw [if_neg hc] at hsome
      exact absurd hsome (Option.some_ne_none _).symm
  · rintro ⟨⟨hc, ha⟩, hOK, h1, h2, h3, h4, h5⟩
    refine ⟨x.2 2, ha 2, x.1 2, ⟨x.1 2 - x.2 2, by have := hc 2; omega, by omega⟩,
      x.1 1, ⟨x.1 1 - x.2 2, by have := hc 1; omega, by omega⟩,
      x.2 1, ⟨x.2 1 - x.2 2, by have := ha 1; omega, by omega⟩,
      x.1 0, ⟨x.1 0 - x.1 1, by have := hc 0; omega, by omega⟩,
      x.2 0, ⟨x.2 0 - x.2 2, by have := ha 0; omega, by omega⟩, ?_⟩
    have hcond : getIrrepProduct (getIrrepProduct (getIrrepProduct
        (getIrrepProduct (p.orb2irrep (x.1 2)) (p.orb2irrep (x.2 2)))
        (p.orb2irrep (x.1 1))) (p.orb2irrep (x.2 1))) (p.orb2irrep (x.1 0))
        = p.orb2irrep (x.2 0) := by
      have : sexIrrep p x = getIrrepProduct (getIrrepProduct (getIrrepProduct
          (getIrrepProduct (getIrrepProduct (p.orb2irrep (x.1 2))
            (p.orb2irrep (x.2 2))) (p.orb2irrep (x.1 1)))
            (p.orb2irrep (x.2 1))) (p.orb2irrep (x.1 0)))
          (p.orb2irrep (x.2 0)) := rfl
      have h0 : getIrrepProduct (getIrrepProduct (getIrrepProduct
          (getIrrepProduct (getIrrepProduct (p.orb2irrep (x.1 2))
            (p.orb2irrep (x.2 2))) (p.orb2irrep (x.1 1)))
            (p.orb2irrep (x.2 1))) (p.orb2irrep (x.1 0)))
          (p.orb2irrep (x.2 0)) = 0 := by rw [← this]; exact hOK
      exact xorEqZero.mp h0
    rw [if_pos hcond]
    exact congrArg some (mkSex_eta x).symm

/-- Every element of the 12-fold group is the identity or one of the
eleven assignment targets of the symmetrization block. -/
theorem symWrites_complete :
    ∀ g : RDMSym, g = ⟨1, false⟩ ∨ g ∈ symWrites := by decide

/-- Evaluating a run of constant-value assignments at the permuted
addresses of a fixed sextet. -/
theorem writeFold_eval (L : ℕ) (c : Sextet) (v : ℚ) (l : List RDMSym)
    (T : ℕ → ℚ) (t : ℕ) :
    (l.foldl (fun Tk g => fun u =>
        if u = idx3 L (actRDM g c) then v else Tk u) T) t
      = if ∃ g ∈ l, t = idx3 L (actRDM g c) then v else T t := by
  induction l generalizing T with
  | nil => simp
  | cons g l ih =>
    rw [List.foldl_cons, ih]
    by_cases hl : ∃ g' ∈ l, t = idx3 L (actRDM g' c)
    · rw [if_pos hl, if_pos ?_]
      obtain ⟨g', hg', he⟩ := hl
      exact ⟨g', List.mem_cons_of_mem g hg', he⟩
    · rw [if_neg hl]
      by_cases hg : t = idx3 L (actRDM g c)
      · rw [if_pos hg, if_pos ⟨g, List.mem_cons_self g l, hg⟩]
      · rw [if_neg hg, if_neg ?_]
        rintro ⟨g', hmem, he⟩
        rcases List.mem_cons.mp hmem with rfl | hmem'
        · exact hg he
        · exact hl ⟨g', hmem', he⟩

/-- After one symmetrization body, the tensor is constant on the whole
orbit of the canonical sextet, with the value read at the canonical
address. -/
theorem symStep_orbit (L : ℕ) (T : ℕ → ℚ) (c : Sextet) (g : RDMSym) :
    symStep L T c (idx3 L (actRDM g c)) = T (idx3 L c) := by
  unfold symStep
  rw [writeFold_eval]
  rcases symWrites_complete g with rfl | hg
  · rw [actRDM_one]
    by_cases hw : ∃ g' ∈ symWrites, idx3 L c = idx3 L (actRDM g' c)
    · rw [if_pos hw]
    · rw [if_neg hw]
  · rw [if_pos ⟨g, hg, rfl⟩]

/-- A position that is no permuted image of the canonical sextet is
untouched by one symmetrization body. -/
theorem symStep_untouched (L : ℕ) (T : ℕ → ℚ) (c : Sextet) (t : ℕ)
    (ht : ∀ g : RDMSym, t ≠ idx3 L (actRDM g c)) :
    symStep L T c t = T t := by
  unfold symStep
  rw [writeFold_eval, if_neg ?_]
  rintro ⟨g, -, he⟩
  exact ht g he

/-- Orbit relations compose. -/
theorem rel_comp {c y x : Sextet} (h1 : ∃ g : RDMSym, actRDM g c = y)
    (h2 : ∃ g : RDMSym, actRDM g y = x) : ∃ g : RDMSym, actRDM g c = x := by
  obtain ⟨g, rfl⟩ := h1
  obtain ⟨h, rfl⟩ := h2
  exact ⟨⟨h.1.trans g.1, xor h.2 g.2⟩, (actRDM_actRDM h g c).symm⟩

/-- Orbit relations are symmetric. -/
theorem rel_symm {c x : Sextet} (h : ∃ g : RDMSym, actRDM g c = x) :
    ∃ g : RDMSym, actRDM g x = c := by
  obtain ⟨g, rfl⟩ := h
  exact ⟨⟨g.1⁻¹, g.2⟩, actRDM_inv g c⟩

/-- Running the symmetrization bodies over a list of canonical sextets:
on any orbit that meets the list the tensor becomes constant, and any
orbit that misses the list is untouched pointwise. -/
theorem symFold_main (p : FCIParams) (x : Sextet) (hxB : sexBounded p.L x) :
    ∀ cs : List Sextet, (∀ c ∈ cs, sexBounded p.L c ∧ sexOK p c) →
    ∀ T : ℕ → ℚ,
    ((∃ c ∈ cs, ∃ g : RDMSym, actRDM g c = x) →
      ∀ g : RDMSym, cs.foldl (symStep p.L) T (idx3 p.L (actRDM g x))
        = cs.foldl (symStep p.L) T (idx3 p.L x))
    ∧ ((¬ ∃ c ∈ cs, ∃ g : RDMSym, actRDM g c = x) →
      ∀ g : RDMSym, cs.foldl (symStep p.L) T (idx3 p.L (actRDM g x))
        = T (idx3 p.L (actRDM g x))) := by
  intro cs
  induction cs with
  | nil =>
    intro hcs T
    exact ⟨fun h => absurd h (by simp), fun _ g => rfl⟩
  | cons c cs ih =>
    intro hcs T
    have hcHead := hcs c (List.mem_cons_self c cs)
    have hcs' : ∀ c' ∈ cs, sexBounded p.L c' ∧ sexOK p c' :=
      fun c' hc' => hcs c' (List.mem_cons_of_mem c hc')
    have ih' := ih hcs' (symStep p.L T c)
    rw [List.foldl_cons]
    constructor
    · rintro ⟨c', hc', hrel⟩ g
      rcases List.mem_cons.mp hc' with rfl | hcmem
      · by_cases hcov : ∃ c'' ∈ cs, ∃ g' : RDMSym, actRDM g' c'' = x
        · exact ih'.1 hcov g
        · obtain ⟨gc, hgc⟩ := hrel
          have key : ∀ h : RDMSym,
              (symStep p.L T c') (idx3 p.L (actRDM h x)) = T (idx3 p.L c') := by
            intro h
            rw [← hgc, actRDM_actRDM]
            exact symStep_orbit p.L T c' _
          have h2 := ih'.2 hcov
          rw [h2 g, key g]
          have h2' := h2 ⟨1, false⟩
          rw [actRDM_one] at h2'
          have key' := key ⟨1, false⟩
          rw [actRDM_one] at key'
          rw [h2', key']
      · exact ih'.1 ⟨c', hcmem, hrel⟩ g
    · rintro hncov g
      have hncov' : ¬ ∃ c'' ∈ cs, ∃ g' : RDMSym, actRDM g' c'' = x := by
        rintro ⟨c'', h1, h2⟩
        exact hncov ⟨c'', List.mem_cons_of_mem c h1, h2⟩
      rw [ih'.2 hncov' g]
      apply symStep_untouched
      intro g' he
      have hB1 : sexBounded p.L (actRDM g x) := sexBounded_actRDM _ g x hxB
      have hB2 : sexBounded p.L (actRDM g' c) := sexBounded_actRDM _ g' c hcHead.1
      have heq := idx3_inj hB1 hB2 he
      apply hncov
      refine ⟨c, List.mem_cons_self c cs, ?_⟩
      have hback := actRDM_inv g x
      rw [heq, actRDM_actRDM] at hback
      exact ⟨_, hback⟩

/-- Coverage in the annihilator-minimum case: if some annihilator slot
holds a global minimum of the six orbitals, the orbit reaches a
canonical sextet. -/
theorem canonCover_amin (p : FCIParams) (x : Sextet)
    (hB : sexBounded p.L x) (hOK : sexOK p x) (s : Fin 3)
    (hmin1 : ∀ t, x.2 s ≤ x.2 t) (hmin2 : ∀ t, x.2 s ≤ x.1 t) :
    ∃ c ∈ canonList p, ∃ g : RDMSym, actRDM g c = x := by
  set y := actRDM ⟨Equiv.swap s 2, false⟩ x with hy
  have hy1 : ∀ t, y.1 t = x.1 (Equiv.swap s 2 t) := fun t => rfl
  have hy2 : ∀ t, y.2 t = x.2 (Equiv.swap s 2 t) := fun t => rfl
  have hy22 : y.2 2 = x.2 s := by rw [hy2, Equiv.swap_apply_right]
  have hyB : sexBounded p.L y := sexBounded_actRDM p.L _ x hB
  have hyOK : sexOK p y := (sexOK_actRDM p _ x).mpr hOK
  have hrelyx : ∃ g : RDMSym, actRDM g y = x :=
    rel_symm ⟨⟨Equiv.swap s 2, false⟩, rfl⟩
  by_cases h12 : y.1 1 ≤ y.1 0
  · refine ⟨y, ?_, hrelyx⟩
    rw [canonList_mem]
    refine ⟨hyB, hyOK, ?_, ?_, ?_, h12, ?_⟩ <;> rw [hy22]
    · rw [hy1]; exact hmin2 _
    · rw [hy1]; exact hmin2 _
    · rw [hy2]; exact hmin1 _
    · rw [hy2]; exact hmin1 _
  · set z := actRDM ⟨Equiv.swap 0 1, false⟩ y with hz
    have hz1 : ∀ t, z.1 t = y.1 (Equiv.swap 0 1 t) := fun t => rfl
    have hz2 : ∀ t, z.2 t = y.2 (Equiv.swap 0 1 t) := fun t => rfl
    have hs0 : Equiv.swap (0 : Fin 3) 1 0 = 1 := Equiv.swap_apply_left 0 1
    have hs1 : Equiv.swap (0 : Fin 3) 1 1 = 0 := Equiv.swap_apply_right 0 1
    have hs2 : Equiv.swap (0 : Fin 3) 1 2 = 2 :=
      Equiv.swap_apply_of_ne_of_ne (by decide) (by decide)
    have hz22 : z.2 2 = x.2 s := by rw [hz2, hs2, hy22]
    refine ⟨z, ?_, rel_comp (rel_symm ⟨⟨Equiv.swap 0 1, false⟩, rfl⟩) hrelyx⟩
    rw [canonList_mem]
    refine ⟨sexBounded_actRDM p.L _ y hyB, (sexOK_actRDM p _ y).mpr hyOK,
      ?_, ?_, ?_, ?_, ?_⟩
    · rw [hz22, hz1, hs2, hy1]; exact hmin2 _
    · rw [hz22, hz1, hs1, hy1]; exact hmin2 _
    · rw [hz22, hz2, hs1, hy2]; exact hmin1 _
    · rw [hz1, hz1, hs0, hs1]; omega
    · rw [hz22, hz2, hs0, hy2]; exact hmin1 _

/-- Every in-bounds, irrep-allowed sextet lies on the orbit of some
canonical sextet visited by the symmetrization loop nest. -/
theorem canonCover (p : FCIParams) (x : Sextet) (hB : sexBounded p.L x)
    (hOK : sexOK p x) : ∃ c ∈ canonList p, ∃ g : RDMSym, actRDM g c = x := by
  obtain ⟨i, hmin⟩ : ∃ i : Fin 3 ⊕ Fin 3,
      ∀ j, Sum.elim x.2 x.1 i ≤ Sum.elim x.2 x.1 j := by
    obtain ⟨i, -, hmin⟩ := Finset.exists_min_image Finset.univ
      (Sum.elim x.2 x.1) ⟨Sum.inl 0, Finset.mem_univ _⟩
    exact ⟨i, fun j => hmin j (Finset.mem_univ _)⟩
  cases i with
  | inl s =>
    exact canonCover_amin p x hB hOK s (fun t => hmin (Sum.inl t))
      (fun t => hmin (Sum.inr t))
  | inr s =>
    have hxinv := actRDM_inv ⟨1, true⟩ x
    rw [inv_one] at hxinv
    obtain ⟨c, hcmem, hrel⟩ := canonCover_amin p (actRDM ⟨1, true⟩ x)
      (sexBounded_actRDM p.L _ x hB) ((sexOK_actRDM p _ x).mpr hOK) s
      (fun t => hmin (Sum.inr t)) (fun t => hmin (Sum.inl t))
    exact ⟨c, hcmem, rel_comp hrel ⟨⟨1, true⟩, hxinv⟩⟩

/-- A predicate preserved by every step of a fold is preserved by the
fold. -/
theorem foldl_keep {α β : Type} (P : β → Prop) (f : β → α → β) :
    ∀ l : List α, (∀ b a, a ∈ l → P b → P (f b a)) → ∀ b, P b →
      P (l.foldl f b) := by
  intro l
  induction l with
  | nil => intro _ b hb; exact hb
  | cons a l ih =>
    intro h b hb
    rw [List.foldl_cons]
    exact ih (fun b' a' ha' => h b' a' (List.mem_cons_of_mem a ha'))
      (f b a) (h b a (List.mem_cons_self a l) hb)

/-- In-bounds components give an in-bounds sextet. -/
theorem mkSex_bounded {L u v w a b c : ℕ} (hu : u < L) (hv : v < L)
    (hw : w < L) (ha : a < L) (hb : b < L) (hc : c < L) :
    sexBounded L (mkSex u v w a b c) := by
  have hfin : ∀ s : Fin 3, s = 0 ∨ s = 1 ∨ s = 2 := by decide
  constructor
  · intro s
    rcases hfin s with rfl | rfl | rfl
    exacts [hu, hv, hw]
  · intro s
    rcases hfin s with rfl | rfl | rfl
    exacts [ha, hb, hc]

/-- The two delta-contraction targets of Fill3RDM lines 940-941 carry a
trivial total irrep product when the excitation irrep product is
trivial. -/
theorem sexOK_delta (p : FCIParams) {m l crea1 anni1 : ℕ}
    (h : getIrrepProduct (p.orb2irrep crea1) (p.orb2irrep anni1) = 0) :
    sexOK p (mkSex m crea1 l l m anni1) ∧ sexOK p (mkSex crea1 l m l m anni1) := by
  have he : p.orb2irrep crea1 = p.orb2irrep anni1 := xorEqZero.mp h
  constructor
  · show ((((p.orb2irrep l ^^^ p.orb2irrep anni1) ^^^ p.orb2irrep crea1) ^^^
      p.orb2irrep m) ^^^ p.orb2irrep m) ^^^ p.orb2irrep l = 0
    rw [he]
    refine Nat.eq_of_testBit_eq (fun i => ?_)
    simp [Nat.testBit_xor, Bool.xor_assoc, Bool.xor_comm, Bool.xor_left_comm]
  · show ((((p.orb2irrep m ^^^ p.orb2irrep anni1) ^^^ p.orb2irrep l) ^^^
      p.orb2irrep m) ^^^ p.orb2irrep crea1) ^^^ p.orb2irrep l = 0
    rw [he]
    refine Nat.eq_of_testBit_eq (fun i => ?_)
    simp [Nat.testBit_xor, Bool.xor_assoc, Bool.xor_comm, Bool.xor_left_comm]

/-- The three single-delta targets of Fill3RDM lines 965-967 carry a
trivial total irrep product when the two excitation irrep products
coincide. -/
theorem sexOK_minus (p : FCIParams) {crea1 anni1 crea2 anni2 orb : ℕ}
    (h : getIrrepProduct (p.orb2irrep crea1) (p.orb2irrep anni1)
      = getIrrepProduct (p.orb2irrep crea2) (p.orb2irrep anni2)) :
    sexOK p (mkSex crea1 crea2 orb orb anni2 anni1) ∧
      sexOK p (mkSex crea2 orb crea1 orb anni2 anni1) ∧
      sexOK p (mkSex crea2 crea1 orb anni2 orb anni1) := by
  have hc1 : p.orb2irrep crea1
      = (p.orb2irrep crea2 ^^^ p.orb2irrep anni2) ^^^ p.orb2irrep anni1 := by
    have hstart : p.orb2irrep crea1
        = (p.orb2irrep crea1 ^^^ p.orb2irrep anni1) ^^^ p.orb2irrep anni1 :=
      (Nat.xor_cancel_right _ _).symm
    rw [hstart]
    have h' : p.orb2irrep crea1 ^^^ p.orb2irrep anni1
        = p.orb2irrep crea2 ^^^ p.orb2irrep anni2 := h
    rw [h']
  refine ⟨?_, ?_, ?_⟩
  · show ((((p.orb2irrep orb ^^^ p.orb2irrep anni1) ^^^ p.orb2irrep crea2) ^^^
      p.orb2irrep anni2) ^^^ p.orb2irrep crea1) ^^^ p.orb2irrep orb = 0
    rw [hc1]
    refine Nat.eq_of_testBit_eq (fun i => ?_)
    simp [Nat.testBit_xor, Bool.xor_assoc, Bool.xor_comm, Bool.xor_left_comm]
  · show ((((p.orb2irrep crea1 ^^^ p.orb2irrep anni1) ^^^ p.orb2irrep orb) ^^^
      p.orb2irrep anni2) ^^^ p.orb2irrep crea2) ^^^ p.orb2irrep orb = 0
    rw [hc1]
    refine Nat.eq_of_testBit_eq (fun i => ?_)
    simp [Nat.testBit_xor, Bool.xor_assoc, Bool.xor_comm, Bool.xor_left_comm]
  · show ((((p.orb2irrep orb ^^^ p.orb2irrep anni1) ^^^ p.orb2irrep crea1) ^^^
      p.orb2irrep orb) ^^^ p.orb2irrep crea2) ^^^ p.orb2irrep anni2 = 0
    rw [hc1]
    refine Nat.eq_of_testBit_eq (fun i => ?_)
    simp [Nat.testBit_xor, Bool.xor_assoc, Bool.xor_comm, Bool.xor_left_comm]

/-- The direct accumulation target of Fill3RDM line 981 carries a
trivial total irrep product under the three nested irrep guards. -/
theorem sexOK_main (p : FCIParams) {crea1 anni1 crea2 anni2 crea3 anni3 : ℕ}
    (h3 : getIrrepProduct (p.orb2irrep crea3) (p.orb2irrep anni3)
      = getIrrepProduct
          (getIrrepProduct (p.orb2irrep crea1) (p.orb2irrep anni1))
          (getIrrepProduct (p.orb2irrep crea2) (p.orb2irrep anni2))) :
    sexOK p (mkSex crea3 crea2 crea1 anni3 anni2 anni1) := by
  have hc3 : p.orb2irrep crea3
      = ((p.orb2irrep crea1 ^^^ p.orb2irrep anni1) ^^^
          (p.orb2irrep crea2 ^^^ p.orb2irrep anni2)) ^^^ p.orb2irrep anni3 := by
    have hstart : p.orb2irrep crea3
        = (p.orb2irrep crea3 ^^^ p.orb2irrep anni3) ^^^ p.orb2irrep anni3 :=
      (Nat.xor_cancel_right _ _).symm
    rw [hstart]
    have h' : p.orb2irrep crea3 ^^^ p.orb2irrep anni3
        = (p.orb2irrep crea1 ^^^ p.orb2irrep anni1) ^^^
          (p.orb2irrep crea2 ^^^ p.orb2irrep anni2) := h3
    rw [h']
  show ((((p.orb2irrep crea1 ^^^ p.orb2irrep anni1) ^^^ p.orb2irrep crea2) ^^^
    p.orb2irrep anni2) ^^^ p.orb2irrep crea3) ^^^ p.orb2irrep anni3 = 0
  rw [hc3]
  refine Nat.eq_of_testBit_eq (fun i => ?_)
  simp [Nat.testBit_xor, Bool.xor_assoc, Bool.xor_comm, Bool.xor_left_comm]

/-- Accumulating at an irrep-allowed in-bounds address keeps every
irrep-forbidden in-bounds address at zero. -/
theorem addAt_keepZero (p : FCIParams) {T : ℕ → ℚ} {w : Sextet} (v : ℚ)
    (hwB : sexBounded p.L w) (hwOK : sexOK p w)
    (hT : ∀ y, sexBounded p.L y → ¬ sexOK p y → T (idx3 p.L y) = 0) :
    ∀ y, sexBounded p.L y → ¬ sexOK p y →
      addAt (idx3 p.L w) v T (idx3 p.L y) = 0 := by
  intro y hyB hyNOK
  simp only [addAt]
  by_cases he : idx3 p.L y = idx3 p.L w
  · rcases idx3_inj hyB hwB he with rfl
    exact absurd hwOK hyNOK
  · rw [if_neg he]
    exact hT y hyB hyNOK

/-- The computation phase of Fill3RDM writes only at irrep-allowed
addresses, so every irrep-forbidden in-bounds address still holds the
zero set by the initial ClearVector. -/
theorem Fill3RDM_comp_support (p : FCIParams) (vector : ℕ → ℚ)
    (st0 : RDM3State) :
    rdmZeroOnForbidden p (Fill3RDM_comp p vector st0) := by
  dsimp only [Fill3RDM_comp]
  refine foldl_keep (rdmZeroOnForbidden p) _ _ ?_ _ ?_
  · intro st center1 hmem1 hP1
    dsimp only []
    refine foldl_keep (rdmZeroOnForbidden p) _ _ ?_ _ hP1
    intro st anni1 hmemA1 hP2
    dsimp only []
    refine foldl_keep (rdmZeroOnForbidden p) _ _ ?_ _ hP2
    intro st crea1 hmemC1 hP3
    dsimp only []
    have bA1 : anni1 < p.L := List.mem_range.mp hmemA1
    have bC1 : crea1 < p.L := ((rangeFrom_mem _ _ _).mp hmemC1).2
    by_cases hg1 : getIrrepProduct (p.orb2irrep crea1) (p.orb2irrep anni1)
        = center1
    · rw [if_pos hg1]
      refine foldl_keep (rdmZeroOnForbidden p) _ _ ?_ _ ?_
      · intro st2 center2 hmem2 hP4
        dsimp only []
        refine foldl_keep (rdmZeroOnForbidden p) _ _ ?_ _ hP4
        intro st3 crea2 hmemC2 hP5
        dsimp only []
        refine foldl_keep (rdmZeroOnForbidden p) _ _ ?_ _ hP5
        intro st4 anni2 hmemA2 hP6
        dsimp only []
        have bC2 : crea2 < p.L := ((rangeFrom_mem _ _ _).mp hmemC2).2
        have bA2 : anni2 < p.L := ((rangeFrom_mem _ _ _).mp hmemA2).2
        by_cases hg2 : getIrrepProduct (p.orb2irrep crea2) (p.orb2irrep anni2)
            = center2
        · rw [if_pos hg2]
          refine foldl_keep (rdmZeroOnForbidden p) _ _ ?_ _ ?_
          · intro st5 crea3 hmemC3 hP7
            dsimp only []
            refine foldl_keep (rdmZeroOnForbidden p) _ _ ?_ _ hP7
            intro st6 anni3 hmemA3 hP8
            dsimp only []
            have bC3 : crea3 < p.L := ((rangeFrom_mem _ _ _).mp hmemC3).2
            have bA3 : anni3 < p.L := ((rangeFrom_mem _ _ _).mp hmemA3).2
            by_cases hg3 : getIrrepProduct (p.orb2irrep crea3)
                (p.orb2irrep anni3) = getIrrepProduct center1 center2
            · rw [if_pos hg3]
              rw [← hg1, ← hg2] at hg3
              intro y hyB hyNOK
              exact addAt_keepZero p _
                (mkSex_bounded bC3 bC2 bC1 bA3 bA2 bA1)
                (sexOK_main p hg3) hP8 y hyB hyNOK
            · rw [if_neg hg3]
              exact hP8
          · by_cases hgm : getIrrepProduct (p.orb2irrep crea1)
                (p.orb2irrep anni1)
                = getIrrepProduct (p.orb2irrep crea2) (p.orb2irrep anni2)
            · rw [if_pos hgm]
              refine foldl_keep (rdmZeroOnForbidden p) _ _ ?_ _ hP6
              intro st5 orb hmemO hP7
              dsimp only []
              have bO : orb < p.L := ((rangeFrom_mem _ _ _).mp hmemO).2
              obtain ⟨hOK1, hOK2, hOK3⟩ := sexOK_minus p hgm
              intro y hyB hyNOK
              exact addAt_keepZero p _
                (mkSex_bounded bC2 bC1 bO bA2 bO bA1) hOK3
                (addAt_keepZero p _
                  (mkSex_bounded bC2 bO bC1 bO bA2 bA1) hOK2
                  (addAt_keepZero p _
                    (mkSex_bounded bC1 bC2 bO bO bA2 bA1) hOK1 hP7))
                y hyB hyNOK
            · rw [if_neg hgm]
              exact hP6
        · rw [if_neg hg2]
          exact hP6
      · by_cases hg0 : getIrrepProduct (p.orb2irrep crea1)
            (p.orb2irrep anni1) = 0
        · rw [if_pos hg0]
          refine foldl_keep (rdmZeroOnForbidden p) _ _ ?_ _ hP3
          intro stm m hmemM hPm
          dsimp only []
          refine foldl_keep (rdmZeroOnForbidden p) _ _ ?_ _ hPm
          intro stl l hmemL hPl
          dsimp only []
          have bM : m < p.L := ((rangeFrom_mem _ _ _).mp hmemM).2
          have bL : l < p.L := ((rangeFrom_mem _ _ _).mp hmemL).2
          obtain ⟨hOKd1, hOKd2⟩ := sexOK_delta p hg0
          intro y hyB hyNOK
          exact addAt_keepZero p _ (mkSex_bounded bC1 bL bM bL bM bA1) hOKd2
            (addAt_keepZero p _ (mkSex_bounded bM bC1 bL bL bM bA1) hOKd1 hPl)
            y hyB hyNOK
        · rw [if_neg hg0]
          exact hP3
    · rw [if_neg hg1]
      exact hP3
  · intro y hyB hyNOK
    show ClearVectorQ (p.L ^ 6) st0.rdm (idx3 p.L y) = 0
    simp only [ClearVectorQ]
    rw [if_pos (idx3_lt p.L y hyB)]

/-- C6: after Fill3RDM returns, the stored three_rdm tensor is invariant
under the full 12-fold index group: for every in-bounds sextet, the
entry at any simultaneous permutation of the creator and annihilator
triples, with or without the creator-annihilator transpose, equals the
entry at the sextet itself. -/
theorem C6_fill3rdm_twelvefold_symmetry (p : FCIParams) (vector : ℕ → ℚ)
    (st0 : RDM3State) (x : Sextet) (hx : sexBounded p.L x) (g : RDMSym) :
    (Fill3RDM p vector st0).rdm (idx3 p.L (actRDM g x))
      = (Fill3RDM p vector st0).rdm (idx3 p.L x) := by
  have hcs : ∀ c ∈ canonList p, sexBounded p.L c ∧ sexOK p c := by
    intro c hc
    have h := (canonList_mem p c).mp hc
    exact ⟨h.1, h.2.1⟩
  have hmain := symFold_main p x hx (canonList p) hcs
    (Fill3RDM_comp p vector st0).rdm
  by_cases hOK : sexOK p x
  · exact hmain.1 (canonCover p x hx hOK) g
  · have hncov : ¬ ∃ c ∈ canonList p, ∃ g' : RDMSym, actRDM g' c = x := by
      rintro ⟨c, hc, g', hg'⟩
      exact hOK (hg' ▸ (sexOK_actRDM p g' c).mpr (hcs c hc).2)
    have h2 := hmain.2 hncov
    have hs := Fill3RDM_comp_support p vector st0
    calc (Fill3RDM p vector st0).rdm (idx3 p.L (actRDM g x))
        = (Fill3RDM_comp p vector st0).rdm (idx3 p.L (actRDM g x)) := h2 g
      _ = 0 := hs _ (sexBounded_actRDM p.L g x hx)
          (fun h => hOK ((sexOK_actRDM p g x).mp h))
      _ = (Fill3RDM_comp p vector st0).rdm (idx3 p.L x) :=
          (hs x hx hOK).symm
      _ = (Fill3RDM p vector st0).rdm (idx3 p.L x) := by
          have h2id := h2 ⟨1, false⟩
          rw [actRDM_one] at h2id
          exact h2id.symm

/-- Witness: the 12-fold symmetry theorem applied on a concrete engine
(one orbital, trivial irrep), at the zero sextet and the transpose
group element. -/
theorem C6_fill3rdm_twelvefold_symmetry_witness :
    (Fill3RDM p9 (fun _ => 1) ⟨fun _ => 0, fun _ => 0, fun _ => 0,
        fun _ => 0⟩).rdm
      (idx3 p9.L (actRDM ⟨1, true⟩ (mkSex 0 0 0 0 0 0)))
      = (Fill3RDM p9 (fun _ => 1) ⟨fun _ => 0, fun _ => 0, fun _ => 0,
        fun _ => 0⟩).rdm (idx3 p9.L (mkSex 0 0 0 0 0 0)) :=
  C6_fill3rdm_twelvefold_symmetry p9 (fun _ => 1)
    ⟨fun _ => 0, fun _ => 0, fun _ => 0, fun _ => 0⟩ (mkSex 0 0 0 0 0 0)
    (mkSex_bounded (by decide) (by decide) (by decide) (by decide) (by decide)
      (by decide)) ⟨1, true⟩
